import Mathlib

/-!
# Fan-out / fan-in pipeline of `precode.go`

The Go program starts one `Generator`, `NumOut` `Worker`s reading the shared
unbuffered channel `chIn`, one relay goroutine per worker channel `outs[i]`
writing into the buffered channel `chOut`, one goroutine that waits on the
`sync.WaitGroup` and closes `chOut`, and finally drains `chOut` in `main` and
compares the counters of both ends.

## The embedding

* Each function is a small deterministic machine (`Generator.step`,
  `Worker.step`) with one step per statement, labelled by the effect it
  performs. `Generator` and `Worker` are the lists of effects of a run, given
  what the environment answers (the context, the values on `in`).
* `Pipeline.step` composes the machines into the whole program. A `Pick` names
  the goroutine that moves next, so a schedule is a list of picks and the
  interleavings are all schedules. One step is one channel operation, one
  atomic add, one WaitGroup operation or one `go` statement. Channel
  operations follow the semantics of Go: rendezvous on the unbuffered `chIn`
  and `outs[i]`, a bounded FIFO for `chOut`, a receive on a closed and empty
  channel reports the end, a send on or a close of a closed channel panics,
  a negative WaitGroup counter panics. The end of `main` or a panic ends the
  process.
* `int64` arithmetic is on `Int` with an explicit wrap into the `int64` range.
* Time is abstracted: `time.Sleep` is a step, and the timer of the context
  fires at an arbitrary moment (`Pick.deadline`). Memory is sequentially
  consistent.

## The development

The invariants `Inv` (control state, channels, WaitGroup), `Flow` (every value
sent is in exactly one place), `GenC` and `MainC` (counters against the
histories) and `Logs` (relays forward verbatim) hold in every reachable state.
`Inv.progress` is deadlock freedom, `mu` is a measure that decreases at every
step once the deadline has fired. The claims about single functions are
proved on the lists of effects, the claims about the program on `Reachable`.
-/

namespace Pipeline

/-! ## Machine integers -/

/-- Wrap of an integer into the `int64` range (two-complement, as Go does on overflow). -/
def wrap64 (x : Int) : Int := (x + 2 ^ 63) % 2 ^ 64 - 2 ^ 63

/-- Pointwise update of a goroutine-indexed table. -/
def upd {α : Type} (f : Nat → α) (i : Nat) (x : α) : Nat → α :=
  fun j => if j = i then x else f j

/-! ## Generator (lines 16-29) -/

/-- Program points of `Generator`: the `select`, the send `ch <- n`, the call
`fn(n)` (followed by `n++`), the `close(ch)` of the cancelled branch, and the
state after `return`. -/
inductive GenPC where
  | select
  | send
  | call
  | close
  | halted
  deriving DecidableEq

/-- Local state of `Generator`: program point and the variable `n`. -/
structure Gen where
  pc : GenPC
  n : Int
  deriving DecidableEq

/-- Effects of `Generator`, one per step. -/
inductive GenEv where
  | ctxDone
  | dflt
  | send (v : Int)
  | call (v : Int)
  | close
  deriving DecidableEq

/-- State of `Generator` on entry: `n := int64(1)`, in front of the `select`. -/
def Generator.init : Gen := ⟨.select, 1⟩

/-- One step of `Generator`. `done` is whether `ctx.Done()` is ready at this
instant; it is consulted only by the `select`. After `close(ch)` the function
has returned and has no further step. -/
def Generator.step (done : Bool) (g : Gen) : Option (GenEv × Gen) :=
  match g.pc with
  | .select => if done then some (.ctxDone, { g with pc := .close })
               else some (.dflt, { g with pc := .send })
  | .send => some (.send g.n, { g with pc := .call })
  | .call => some (.call g.n, { pc := .select, n := wrap64 (g.n + 1) })
  | .close => some (.close, { g with pc := .halted })
  | .halted => none

/-- Effects of at most `fuel` steps of `Generator` from state `g`, where the
`k`-th `select` (counted from `k`) sees `ctx k`. -/
def Generator.exec (ctx : Nat → Bool) : Nat → Nat → Gen → List GenEv
  | 0, _, _ => []
  | fuel + 1, k, g =>
    match Generator.step (ctx k) g with
    | none => []
    | some (e, g') =>
      e :: Generator.exec ctx fuel (if g.pc = .select then k + 1 else k) g'

/-- Effects of a run of `Generator` from its entry, cut after `fuel` steps. -/
def Generator (ctx : Nat → Bool) (fuel : Nat) : List GenEv :=
  Generator.exec ctx fuel 0 Generator.init

/-- Values sent on `ch`, in order. -/
def GenEv.sends : List GenEv → List Int
  | [] => []
  | .send v :: es => v :: GenEv.sends es
  | _ :: es => GenEv.sends es

/-- Arguments of the calls of `fn`, in order. -/
def GenEv.calls : List GenEv → List Int
  | [] => []
  | .call v :: es => v :: GenEv.calls es
  | _ :: es => GenEv.calls es

/-- The integers `a+1, a+2, ..., a+N`. -/
def upTo (a : Int) : Nat → List Int
  | 0 => []
  | N + 1 => (a + 1) :: upTo (a + 1) N

/-- The effects of `N` full iterations starting with `n = a + 1` when no
arithmetic wraps: `default`, send, call for each of `a+1 .. a+N`. -/
def Generator.rounds (a : Int) : Nat → List GenEv
  | 0 => []
  | N + 1 => .dflt :: .send (a + 1) :: .call (a + 1) :: Generator.rounds (a + 1) N

/-- The effects of `N` full iterations starting with `n`, with the wrap of `n++`. -/
def Generator.roundsFrom (n : Int) : Nat → List GenEv
  | 0 => []
  | N + 1 => .dflt :: .send n :: .call n :: Generator.roundsFrom (wrap64 (n + 1)) N

/-- The variable `n` after `N` full iterations starting with `n`. -/
def Generator.nAfter (n : Int) : Nat → Int
  | 0 => n
  | N + 1 => Generator.nAfter (wrap64 (n + 1)) N

/-! ## Worker (lines 32-38) -/

/-- Program points of `Worker`: the receive of `range in`, the send
`out <- num`, the `time.Sleep`, the `close(out)`, and the state after return. -/
inductive WorkerPC where
  | recv
  | send (v : Int)
  | sleep
  | close
  | halted
  deriving DecidableEq

/-- Effects of `Worker`, one per step. `eof` is the receive that finds `in`
closed and drained; `sleep ms` is `time.Sleep` for `ms` milliseconds. -/
inductive WorkerEv where
  | recv (v : Int)
  | eof
  | send (v : Int)
  | sleep (ms : Nat)
  | close
  deriving DecidableEq

/-- One step of `Worker`. `r` is what the receive yields (`none` when `in` is
closed and drained); it is consulted only at the receive. -/
def Worker.step (r : Option Int) : WorkerPC → Option (WorkerEv × WorkerPC)
  | .recv =>
    match r with
    | some v => some (.recv v, .send v)
    | none => some (.eof, .close)
  | .send v => some (.send v, .sleep)
  | .sleep => some (.sleep 1, .recv)
  | .close => some (.close, .halted)
  | .halted => none

/-- Effects of at most `fuel` steps of `Worker` from program point `w`, when
`in` delivers the values `ins` and is then closed. -/
def Worker.exec : Nat → List Int → WorkerPC → List WorkerEv
  | 0, _, _ => []
  | fuel + 1, ins, w =>
    match Worker.step ins.head? w with
    | none => []
    | some (e, w') => e :: Worker.exec fuel (if w = .recv then ins.tail else ins) w'

/-- Effects of a run of `Worker` from its entry, cut after `fuel` steps. -/
def Worker (ins : List Int) (fuel : Nat) : List WorkerEv :=
  Worker.exec fuel ins .recv

/-- Values written to `out`, in order. -/
def WorkerEv.sends : List WorkerEv → List Int
  | [] => []
  | .send v :: es => v :: WorkerEv.sends es
  | _ :: es => WorkerEv.sends es

/-- Values received from `in`, in order. -/
def WorkerEv.recvs : List WorkerEv → List Int
  | [] => []
  | .recv v :: es => v :: WorkerEv.recvs es
  | _ :: es => WorkerEv.recvs es

/-- The effects of relaying the values `ins`: receive, write, sleep 1ms for each. -/
def Worker.rounds : List Int → List WorkerEv
  | [] => []
  | v :: vs => .recv v :: .send v :: .sleep 1 :: Worker.rounds vs

/-- For every received value the 1ms sleep comes between the receive and the
write (the order sleep, then write). -/
def WorkerEv.sleepThenWrite : List WorkerEv → Bool
  | .recv v :: .sleep ms :: .send w :: es =>
    decide (v = w) && decide (ms = 1) && WorkerEv.sleepThenWrite es
  | .recv _ :: _ => false
  | _ :: es => WorkerEv.sleepThenWrite es
  | [] => true

/-- For every received value the write follows the receive directly and the
1ms sleep follows the write (the order write, then sleep). -/
def WorkerEv.writeThenSleep : List WorkerEv → Bool
  | .recv v :: .send w :: .sleep ms :: es =>
    decide (v = w) && decide (ms = 1) && WorkerEv.writeThenSleep es
  | .recv _ :: _ => false
  | _ :: es => WorkerEv.writeThenSleep es
  | [] => true

/-! ## Final check of `main` (lines 99-105) -/

/-- How `main` ends: normally, or through one of the two `log.Fatalf`. -/
inductive Outcome where
  | ok
  | fatalSum (inputSum sum : Int)
  | fatalCount (inputCount count : Int)
  deriving DecidableEq

/-- The two comparisons at the end of `main`, in source order. -/
def check (inputCount inputSum count sum : Int) : Outcome :=
  if inputSum ≠ sum then .fatalSum inputSum sum
  else if inputCount ≠ count then .fatalCount inputCount count
  else .ok

/-! ## The whole program (`main`, lines 40-105) -/

/-- Program points of the goroutine running `main`, after the context has been
created: `go Generator(...)`, the loop starting the workers (index `i`), the
loop over `outs` with its `wg.Add(1)` and its `go func(...)`, the start of the
closing goroutine, the receive of `for num := range chOut`, the two atomic
adds of its body, the final check, and the end of the process. -/
inductive MainPC where
  | spawnGen
  | spawnWorker (i : Nat)
  | wgAdd (i : Nat)
  | spawnRelay (i : Nat)
  | spawnCloser
  | recv
  | addCount (v : Int)
  | addSum (v : Int)
  | verify
  | exited (r : Outcome)
  deriving DecidableEq

/-- Program points of a relay goroutine (lines 72-77): the receive of
`range in`, the send `chOut <- num`, the deferred `wg.Done()`, returned. -/
inductive RelayPC where
  | recv
  | send (v : Int)
  | wgDone
  | halted
  deriving DecidableEq

/-- Program points of the closing goroutine (lines 81-84): `wg.Wait()`,
`close(chOut)`, returned. -/
inductive CloserPC where
  | wait
  | close
  | halted
  deriving DecidableEq

/-- Global state. A goroutine that has not been started yet is `none`.
`sent`, `got`, `relIn` and `relOut` are history variables: the values sent on
`chIn`, the values `main` has read from `chOut`, and per relay the values
received from `outs[i]` and written to `chOut`. `cb` tells whether the
callback passed to `Generator` has done its first atomic add. -/
structure State where
  deadline : Bool
  panicked : Bool
  pc : MainPC
  gen : Option Gen
  cb : Bool
  chInClosed : Bool
  wk : Nat → Option WorkerPC
  outsClosed : Nat → Bool
  rl : Nat → Option RelayPC
  wg : Nat
  cl : Option CloserPC
  chOut : List Int
  chOutCloses : Nat
  inputSum : Int
  inputCount : Int
  count : Int
  sum : Int
  sent : List Int
  got : List Int
  relIn : Nat → List Int
  relOut : Nat → List Int

/-- The constant `NumOut` of line 57: the number of workers. -/
def NumOut : Nat := 5

/-- State in which `main` has created `chIn` and the context and declared the
counters, and no goroutine has been started. -/
def init : State where
  deadline := false
  panicked := false
  pc := .spawnGen
  gen := none
  cb := false
  chInClosed := false
  wk := fun _ => none
  outsClosed := fun _ => false
  rl := fun _ => none
  wg := 0
  cl := none
  chOut := []
  chOutCloses := 0
  inputSum := 0
  inputCount := 0
  count := 0
  sum := 0
  sent := []
  got := []
  relIn := fun _ => []
  relOut := fun _ => []

/-- The choice of the scheduler: the timer of the context fires, or one goroutine
performs its next operation. -/
inductive Pick where
  | deadline
  | main
  | gen
  | worker (i : Nat)
  | relay (i : Nat)
  | closer
  deriving DecidableEq

/-- The value `Generator` is blocked sending on `chIn`, with its state after
the send. -/
def chInOffer (s : State) : Option (Int × Gen) :=
  match s.gen with
  | none => none
  | some g =>
    match Generator.step s.deadline g with
    | some (.send v, g') => some (v, g')
    | _ => none

/-- The value worker `i` is blocked sending on `outs[i]`, with its program
point after the send. -/
def outOffer (s : State) (i : Nat) : Option (Int × WorkerPC) :=
  match s.wk i with
  | none => none
  | some w =>
    match Worker.step none w with
    | some (.send v, w') => some (v, w')
    | _ => none

/-- The timer of `context.WithTimeout` fires. -/
def stepDeadline (s : State) : Option State :=
  if s.deadline then none else some { s with deadline := true }

/-- Next operation of `main`, with `K` workers (`K` stands for the constant
`NumOut` of line 57). -/
def stepMain (K : Nat) (s : State) : Option State :=
  match s.pc with
  | .spawnGen => some { s with gen := some Generator.init, pc := .spawnWorker 0 }
  | .spawnWorker i =>
    if i < K then some { s with wk := upd s.wk i (some .recv), pc := .spawnWorker (i + 1) }
    else some { s with pc := .wgAdd 0 }
  | .wgAdd i =>
    if i < K then some { s with wg := s.wg + 1, pc := .spawnRelay i }
    else some { s with pc := .spawnCloser }
  | .spawnRelay i => some { s with rl := upd s.rl i (some .recv), pc := .wgAdd (i + 1) }
  | .spawnCloser => some { s with cl := some .wait, pc := .recv }
  | .recv =>
    match s.chOut with
    | v :: rest => some { s with chOut := rest, got := s.got ++ [v], pc := .addCount v }
    | [] => if 0 < s.chOutCloses then some { s with pc := .verify } else none
  | .addCount v => some { s with count := wrap64 (s.count + 1), pc := .addSum v }
  | .addSum v => some { s with sum := wrap64 (s.sum + v), pc := .recv }
  | .verify => some { s with pc := .exited (check s.inputCount s.inputSum s.count s.sum) }
  | .exited _ => none

/-- Next operation of the `Generator` goroutine. The send on `chIn` is done
together with the receiving worker (`stepWorker`); alone it blocks, or panics
when `chIn` is closed. The call of `fn` runs the callback of lines 52-55: two
atomic adds, each a step of its own. -/
def stepGen (s : State) : Option State :=
  match s.gen with
  | none => none
  | some g =>
    match Generator.step s.deadline g with
    | none => none
    | some (.ctxDone, g') => some { s with gen := some g' }
    | some (.dflt, g') => some { s with gen := some g' }
    | some (.send _, _) => if s.chInClosed then some { s with panicked := true } else none
    | some (.call v, g') =>
      if s.cb then some { s with inputCount := wrap64 (s.inputCount + 1), cb := false, gen := some g' }
      else some { s with inputSum := wrap64 (s.inputSum + v), cb := true }
    | some (.close, g') =>
      if s.chInClosed then some { s with panicked := true }
      else some { s with chInClosed := true, gen := some g' }

/-- Next operation of worker `i`. Its send on `outs[i]` is done together with
the receiving relay (`stepRelay`). -/
def stepWorker (s : State) (i : Nat) : Option State :=
  match s.wk i with
  | none => none
  | some w =>
    match Worker.step ((chInOffer s).map Prod.fst) w with
    | none => none
    | some (.recv v, w') =>
      match chInOffer s with
      | some (_, g') =>
        some { s with gen := some g', wk := upd s.wk i (some w'), sent := s.sent ++ [v] }
      | none => none
    | some (.eof, w') =>
      if s.chInClosed then some { s with wk := upd s.wk i (some w') } else none
    | some (.send _, _) => if s.outsClosed i then some { s with panicked := true } else none
    | some (.sleep _, w') => some { s with wk := upd s.wk i (some w') }
    | some (.close, w') =>
      if s.outsClosed i then some { s with panicked := true }
      else some { s with outsClosed := upd s.outsClosed i true, wk := upd s.wk i (some w') }

/-- Next operation of relay `i`; `chOut` has capacity `K`, the number of workers
(line 67). -/
def stepRelay (K : Nat) (s : State) (i : Nat) : Option State :=
  match s.rl i with
  | none => none
  | some .recv =>
    match outOffer s i with
    | some (v, w') =>
      some { s with wk := upd s.wk i (some w'), rl := upd s.rl i (some (.send v)),
                    relIn := upd s.relIn i (s.relIn i ++ [v]) }
    | none => if s.outsClosed i then some { s with rl := upd s.rl i (some .wgDone) } else none
  | some (.send v) =>
    if 0 < s.chOutCloses then some { s with panicked := true }
    else if s.chOut.length < K then
      some { s with chOut := s.chOut ++ [v], rl := upd s.rl i (some .recv),
                    relOut := upd s.relOut i (s.relOut i ++ [v]) }
    else none
  | some .wgDone =>
    if s.wg = 0 then some { s with panicked := true }
    else some { s with wg := s.wg - 1, rl := upd s.rl i (some .halted) }
  | some .halted => none

/-- Next operation of the closing goroutine. -/
def stepCloser (s : State) : Option State :=
  match s.cl with
  | none => none
  | some .wait => if s.wg = 0 then some { s with cl := some .close } else none
  | some .close =>
    if 0 < s.chOutCloses then some { s with panicked := true }
    else some { s with chOutCloses := s.chOutCloses + 1, cl := some .halted }
  | some .halted => none

/-- Whether `main` has returned or called `log.Fatalf`. -/
def MainPC.isExited : MainPC → Bool
  | .exited _ => true
  | _ => false

/-- One step of the program with `K` workers when the scheduler picks `p`;
`none` when the chosen goroutine is blocked, has returned or was not started.
A panic or the end of `main` ends the process: nothing moves afterwards. -/
def step (K : Nat) (s : State) (p : Pick) : Option State :=
  if s.panicked || s.pc.isExited then none
  else
    match p with
    | .deadline => stepDeadline s
    | .main => stepMain K s
    | .gen => stepGen s
    | .worker i => stepWorker s i
    | .relay i => stepRelay K s i
    | .closer => stepCloser s

/-- The state after the schedule `ps`, when each of its steps is possible. -/
def run (K : Nat) (s : State) : List Pick → Option State
  | [] => some s
  | p :: ps =>
    match step K s p with
    | none => none
    | some s' => run K s' ps

/-- States the program can be in: those some schedule leads to from `init`. -/
def Reachable (K : Nat) (s : State) : Prop :=
  ∃ ps, run K init ps = some s

/-! ## Relational view of the steps, invariants and the termination measure -/

/-- The sum `g 0 + ... + g (k-1)`. -/
def sumTo (g : Nat → Nat) : Nat → Nat
  | 0 => 0
  | k + 1 => sumTo g k + g k

/-- How many workers `main` has started when it stands at the given program point. -/
def MainPC.workers (K : Nat) : MainPC → Nat
  | .spawnGen => 0
  | .spawnWorker i => i
  | _ => K

/-- How many relays `main` has started when it stands at the given program point. -/
def MainPC.relays (K : Nat) : MainPC → Nat
  | .spawnGen => 0
  | .spawnWorker _ => 0
  | .wgAdd i => i
  | .spawnRelay i => i
  | _ => K

/-- How many times `main` has called `wg.Add(1)` at the given program point. -/
def MainPC.adds (K : Nat) : MainPC → Nat
  | .spawnGen => 0
  | .spawnWorker _ => 0
  | .wgAdd i => i
  | .spawnRelay i => i + 1
  | _ => K

/-- Whether `main` has started the closing goroutine at the given program point. -/
def MainPC.closer : MainPC → Bool
  | .recv => true
  | .addCount _ => true
  | .addSum _ => true
  | .verify => true
  | .exited _ => true
  | _ => false

/-- A relay that has not called `wg.Done()` yet accounts for one unit of the WaitGroup. -/
def owes : Option RelayPC → Nat
  | some .halted => 0
  | _ => 1

/-- Facts about worker `i`, its channel and its relay. -/
structure Idx (K : Nat) (s : State) (i : Nat) : Prop where
  wkS : s.wk i = none ↔ s.pc.workers K ≤ i
  rlS : s.rl i = none ↔ s.pc.relays K ≤ i
  wkIn : s.wk i = some .close ∨ s.wk i = some .halted → s.chInClosed = true
  outs : s.outsClosed i = true ↔ s.wk i = some .halted
  rlOut : s.rl i = some .wgDone ∨ s.rl i = some .halted → s.outsClosed i = true
  clWg : s.cl = some .close ∨ s.cl = some .halted → i < K → s.rl i = some .halted

/-- Invariant of the control state: no panic, goroutines exist exactly as far as `main`
has started them, a channel is closed exactly when its owner has returned, the WaitGroup
counts the relays that have been added and have not finished, and `chOut` is closed only
after the closing goroutine has seen the counter at zero. -/
structure Inv (K : Nat) (s : State) : Prop where
  noPanic : s.panicked = false
  bW : ∀ i, s.pc = .spawnWorker i → i ≤ K
  bA : ∀ i, s.pc = .wgAdd i → i ≤ K
  bR : ∀ i, s.pc = .spawnRelay i → i < K
  genS : s.gen = none ↔ s.pc = .spawnGen
  clS : s.cl = none ↔ s.pc.closer = false
  chIn : s.chInClosed = true ↔ ∃ n, s.gen = some ⟨.halted, n⟩
  wgEq : s.wg = sumTo (fun i => owes (s.rl i)) (s.pc.adds K)
  closes : s.chOutCloses = if s.cl = some .halted then 1 else 0
  fin : s.pc = .verify ∨ (∃ r, s.pc = .exited r) → s.chOut = [] ∧ s.cl = some .halted
  idx : ∀ i, Idx K s i

/-- The moves of `main`, one constructor per branch of `stepMain`. -/
inductive MainStep (K : Nat) (s : State) : State → Prop where
  | spawnGen : s.pc = .spawnGen →
      MainStep K s { s with gen := some Generator.init, pc := .spawnWorker 0 }
  | spawnWorker (a : Nat) : s.pc = .spawnWorker a → a < K →
      MainStep K s { s with wk := upd s.wk a (some .recv), pc := .spawnWorker (a + 1) }
  | workersDone (a : Nat) : s.pc = .spawnWorker a → ¬ a < K →
      MainStep K s { s with pc := .wgAdd 0 }
  | wgAdd (a : Nat) : s.pc = .wgAdd a → a < K →
      MainStep K s { s with wg := s.wg + 1, pc := .spawnRelay a }
  | relaysDone (a : Nat) : s.pc = .wgAdd a → ¬ a < K →
      MainStep K s { s with pc := .spawnCloser }
  | spawnRelay (a : Nat) : s.pc = .spawnRelay a →
      MainStep K s { s with rl := upd s.rl a (some .recv), pc := .wgAdd (a + 1) }
  | spawnCloser : s.pc = .spawnCloser →
      MainStep K s { s with cl := some .wait, pc := .recv }
  | recv (v : Int) (rest : List Int) : s.pc = .recv → s.chOut = v :: rest →
      MainStep K s { s with chOut := rest, got := s.got ++ [v], pc := .addCount v }
  | recvClosed : s.pc = .recv → s.chOut = [] → 0 < s.chOutCloses →
      MainStep K s { s with pc := .verify }
  | addCount (v : Int) : s.pc = .addCount v →
      MainStep K s { s with count := wrap64 (s.count + 1), pc := .addSum v }
  | addSum (v : Int) : s.pc = .addSum v →
      MainStep K s { s with sum := wrap64 (s.sum + v), pc := .recv }
  | verify : s.pc = .verify →
      MainStep K s { s with pc := .exited (check s.inputCount s.inputSum s.count s.sum) }

/-- The moves of the `Generator` goroutine, one per branch of `stepGen`. -/
inductive GenStep (s : State) : State → Prop where
  | ctxDone (n : Int) : s.gen = some ⟨.select, n⟩ → s.deadline = true →
      GenStep s { s with gen := some ⟨.close, n⟩ }
  | dflt (n : Int) : s.gen = some ⟨.select, n⟩ → s.deadline = false →
      GenStep s { s with gen := some ⟨.send, n⟩ }
  | sendPanic (n : Int) : s.gen = some ⟨.send, n⟩ → s.chInClosed = true →
      GenStep s { s with panicked := true }
  | addCount (n : Int) : s.gen = some ⟨.call, n⟩ → s.cb = true →
      GenStep s { s with inputCount := wrap64 (s.inputCount + 1), cb := false,
                         gen := some ⟨.select, wrap64 (n + 1)⟩ }
  | addSum (n : Int) : s.gen = some ⟨.call, n⟩ → s.cb = false →
      GenStep s { s with inputSum := wrap64 (s.inputSum + n), cb := true }
  | closePanic (n : Int) : s.gen = some ⟨.close, n⟩ → s.chInClosed = true →
      GenStep s { s with panicked := true }
  | close (n : Int) : s.gen = some ⟨.close, n⟩ → s.chInClosed = false →
      GenStep s { s with chInClosed := true, gen := some ⟨.halted, n⟩ }

/-- The moves of worker `i`, one per branch of `stepWorker`. -/
inductive WorkerStep (s : State) (i : Nat) : State → Prop where
  | recv (n : Int) : s.wk i = some .recv → s.gen = some ⟨.send, n⟩ →
      WorkerStep s i { s with gen := some ⟨.call, n⟩, wk := upd s.wk i (some (.send n)),
                              sent := s.sent ++ [n] }
  | eof : s.wk i = some .recv → s.chInClosed = true →
      WorkerStep s i { s with wk := upd s.wk i (some .close) }
  | sendPanic (v : Int) : s.wk i = some (.send v) → s.outsClosed i = true →
      WorkerStep s i { s with panicked := true }
  | sleep : s.wk i = some .sleep →
      WorkerStep s i { s with wk := upd s.wk i (some .recv) }
  | closePanic : s.wk i = some .close → s.outsClosed i = true →
      WorkerStep s i { s with panicked := true }
  | close : s.wk i = some .close → s.outsClosed i = false →
      WorkerStep s i { s with outsClosed := upd s.outsClosed i true,
                              wk := upd s.wk i (some .halted) }

/-- The moves of relay `i`, one per branch of `stepRelay`. -/
inductive RelayStep (K : Nat) (s : State) (i : Nat) : State → Prop where
  | recv (v : Int) : s.rl i = some .recv → s.wk i = some (.send v) →
      RelayStep K s i { s with wk := upd s.wk i (some .sleep), rl := upd s.rl i (some (.send v)),
                               relIn := upd s.relIn i (s.relIn i ++ [v]) }
  | eof : s.rl i = some .recv → (∀ v, s.wk i ≠ some (.send v)) → s.outsClosed i = true →
      RelayStep K s i { s with rl := upd s.rl i (some .wgDone) }
  | sendPanic (v : Int) : s.rl i = some (.send v) → 0 < s.chOutCloses →
      RelayStep K s i { s with panicked := true }
  | send (v : Int) : s.rl i = some (.send v) → ¬ 0 < s.chOutCloses → s.chOut.length < K →
      RelayStep K s i { s with chOut := s.chOut ++ [v], rl := upd s.rl i (some .recv),
                               relOut := upd s.relOut i (s.relOut i ++ [v]) }
  | donePanic : s.rl i = some .wgDone → s.wg = 0 →
      RelayStep K s i { s with panicked := true }
  | done : s.rl i = some .wgDone → s.wg ≠ 0 →
      RelayStep K s i { s with wg := s.wg - 1, rl := upd s.rl i (some .halted) }

/-- The moves of the closing goroutine, one per branch of `stepCloser`. -/
inductive CloserStep (s : State) : State → Prop where
  | wait : s.cl = some .wait → s.wg = 0 → CloserStep s { s with cl := some .close }
  | closePanic : s.cl = some .close → 0 < s.chOutCloses →
      CloserStep s { s with panicked := true }
  | close : s.cl = some .close → ¬ 0 < s.chOutCloses →
      CloserStep s { s with chOutCloses := s.chOutCloses + 1, cl := some .halted }

/-- The value a worker holds between its receive and its send. -/
def hand : Option WorkerPC → List Int
  | some (.send v) => [v]
  | _ => []

/-- The value a relay holds between its receive and its send. -/
def handR : Option RelayPC → List Int
  | some (.send v) => [v]
  | _ => []

/-- The value `Generator` has sent and whose callback has not finished. -/
def pending : Option Gen → Option Int
  | some ⟨.call, n⟩ => some n
  | _ => none

/-- The first `N` values of `n`: `1, 2, ...` with the wrap of `n++`. -/
def seqW (N : Nat) : List Int := (List.range N).map (fun j => wrap64 ((j : Int) + 1))

/-- Every value sent on `chIn` is in exactly one place. -/
def Flow (K : Nat) (s : State) : Prop :=
  ∀ a, s.sent.count a =
    sumTo (fun i => (hand (s.wk i)).count a) K + sumTo (fun i => (handR (s.rl i)).count a) K +
      s.chOut.count a + s.got.count a

/-- The producer-side counters against the history of sends. -/
structure GenC (s : State) : Prop where
  gIdle : pending s.gen = none →
    s.cb = false ∧ s.inputCount = wrap64 s.sent.length ∧ s.inputSum = wrap64 s.sent.sum
  gPend : ∀ n, pending s.gen = some n → ∃ pre, s.sent = pre ++ [n] ∧
    s.inputCount = wrap64 pre.length ∧ s.inputSum = wrap64 (pre.sum + if s.cb then n else 0)
  gNone : s.gen = none → s.sent = []
  gN : ∀ pc n, s.gen = some ⟨pc, n⟩ →
    n = wrap64 (s.sent.length + if pc = .call then 0 else 1)
  seq : s.sent = seqW s.sent.length

/-- The consumer-side counters against the history of receives. -/
structure MainC (s : State) : Prop where
  mCount : ∀ v, s.pc = .addCount v → ∃ pre, s.got = pre ++ [v] ∧
    s.count = wrap64 pre.length ∧ s.sum = wrap64 pre.sum
  mSum : ∀ v, s.pc = .addSum v → ∃ pre, s.got = pre ++ [v] ∧
    s.count = wrap64 s.got.length ∧ s.sum = wrap64 pre.sum
  mIdle : (∀ v, s.pc ≠ .addCount v) → (∀ v, s.pc ≠ .addSum v) →
    s.count = wrap64 s.got.length ∧ s.sum = wrap64 s.got.sum
  exitR : ∀ r, s.pc = .exited r → r = check s.inputCount s.inputSum s.count s.sum

/-- Relay `i` has written to `chOut` what it received from `outs[i]`, except the value it
holds. -/
def Logs (s : State) : Prop :=
  ∀ i, s.relIn i = s.relOut i ++ handR (s.rl i)

/-- Steps `Generator` can still take once the deadline has fired, counting what a value
it hands over still costs downstream. -/
def genW (g : Option Gen) (cb : Bool) : Nat :=
  match g with
  | none => 2
  | some ⟨.select, _⟩ => 2
  | some ⟨.send, _⟩ => 11
  | some ⟨.call, _⟩ => if cb then 3 else 4
  | some ⟨.close, _⟩ => 1
  | some ⟨.halted, _⟩ => 0

/-- Steps a worker can still take without a new value, counting what the value it holds
still costs downstream. -/
def workerW : Option WorkerPC → Nat
  | none => 2
  | some .recv => 2
  | some (.send _) => 8
  | some .sleep => 3
  | some .close => 1
  | some .halted => 0

/-- Steps a relay can still take without a new value, counting what the value it holds
still costs downstream. -/
def relayW : Option RelayPC → Nat
  | none => 2
  | some .recv => 2
  | some (.send _) => 6
  | some .wgDone => 1
  | some .halted => 0

/-- Steps the closing goroutine can still take. -/
def closerW : Option CloserPC → Nat
  | none => 2
  | some .wait => 2
  | some .close => 1
  | some .halted => 0

/-- Steps `main` can still take without a new value from `chOut`. -/
def mainW (K : Nat) : MainPC → Nat
  | .spawnGen => 8 + 3 * K
  | .spawnWorker i => 7 + 2 * K + (K - i)
  | .wgAdd i => 6 + 2 * (K - i)
  | .spawnRelay i => 5 + 2 * (K - i)
  | .spawnCloser => 5
  | .recv => 2
  | .addCount _ => 4
  | .addSum _ => 3
  | .verify => 1
  | .exited _ => 0

/-- Upper bound on the number of steps left once the deadline has fired. -/
def mu (K : Nat) (s : State) : Nat :=
  mainW K s.pc + genW s.gen s.cb + sumTo (fun i => workerW (s.wk i)) K +
    sumTo (fun i => relayW (s.rl i)) K + 3 * s.chOut.length + closerW s.cl

/-- Everything that holds in every reachable state. -/
structure Good (K : Nat) (s : State) : Prop where
  inv : Inv K s
  flow : Flow K s
  genC : GenC s
  mainC : MainC s
  logs : Logs s

/-- The state in which the whole pipeline has shut down and `main` has returned normally. -/
def Final (K : Nat) (s : State) : Prop :=
  s.pc = .exited .ok ∧ s.panicked = false ∧ s.chInClosed = true ∧
  (∀ i, i < K → s.outsClosed i = true) ∧ s.chOutCloses = 1 ∧ s.chOut = [] ∧
  (∃ n, s.gen = some ⟨.halted, n⟩) ∧
  (∀ i, i < K → s.wk i = some .halted ∧ s.rl i = some .halted) ∧ s.cl = some .halted

/-- While nothing has been sent on `chIn`, no relay has received or written anything. -/
def Quiet (s : State) : Prop :=
  s.sent = [] → ∀ i, s.relIn i = [] ∧ s.relOut i = []

/-- The deadline has fired before `Generator` sent anything and `Generator` is not about
to send. -/
def Zero (s : State) : Prop :=
  s.deadline = true ∧ s.sent = [] ∧
    ∀ g, s.gen = some g → g.pc = .select ∨ g.pc = .close ∨ g.pc = .halted

/-- A complete run with the five workers of the source: worker 0 takes the value 1 and
worker 3 the value 2, relay 3 writes to `chOut` before relay 0, the deadline fires,
everything shuts down and `main` returns. -/
def demoSchedule : List Pick :=
  List.replicate 19 .main ++
  [.gen, .worker 0, .gen, .gen, .gen, .worker 3, .gen, .gen,
   .relay 3, .relay 3, .relay 0, .relay 0, .deadline, .gen, .gen,
   .main, .main, .main, .main, .main, .main,
   .worker 0, .worker 0, .worker 0, .worker 3, .worker 3, .worker 3,
   .worker 1, .worker 1, .worker 2, .worker 2, .worker 4, .worker 4,
   .relay 0, .relay 0, .relay 1, .relay 1, .relay 2, .relay 2, .relay 3, .relay 3,
   .relay 4, .relay 4, .closer, .closer, .main, .main]

/-- The state at the end of `demoSchedule`. -/
def demo : State := (run NumOut init demoSchedule).getD init

/-- The state in which the deadline has fired before anything was started. -/
def demoZero : State := (run NumOut init [.deadline]).getD init

/-- The state of `demoSchedule` just before the closing goroutine moves: every relay has
returned and the closing goroutine stands in `wg.Wait()`. -/
def demoWait : State := (run NumOut init (demoSchedule.take 62)).getD init

/-! ## Lemmas -/

/-! ### Machine integers -/

theorem wrap64_of_range {x : Int} (h1 : -2 ^ 63 ≤ x) (h2 : x < 2 ^ 63) : wrap64 x = x := by
  unfold wrap64
  rw [Int.emod_eq_of_lt (by omega) (by omega)]
  omega

theorem wrap64_lt (x : Int) : wrap64 x < 2 ^ 63 := by
  unfold wrap64
  have := Int.emod_lt_of_pos (x + 2 ^ 63) (show (0 : Int) < 2 ^ 64 by norm_num)
  omega

/-! ### Runs of `Generator` -/

theorem Generator.generator_exec_halted (ctx : Nat → Bool) (fuel k : Nat) (n : Int) :
    Generator.exec ctx fuel k ⟨.halted, n⟩ = [] := by
  cases fuel <;> simp [Generator.exec, Generator.step]

theorem Generator.generator_exec_close (ctx : Nat → Bool) (fuel k : Nat) (n : Int) :
    Generator.exec ctx (fuel + 1) k ⟨.close, n⟩ = [.close] := by
  simp [Generator.exec, Generator.step, Generator.generator_exec_halted]

theorem Generator.exec_done (ctx : Nat → Bool) (fuel k : Nat) (n : Int) (h : ctx k = true) :
    Generator.exec ctx (fuel + 2) k ⟨.select, n⟩ = [.ctxDone, .close] := by
  simp [Generator.exec, Generator.step, h, Generator.generator_exec_halted]

theorem Generator.generator_exec_rounds (ctx : Nat → Bool) :
    ∀ (N k : Nat) (n : Int) (fuel : Nat), (∀ j, j < N → ctx (k + j) = false) →
      Generator.exec ctx (3 * N + fuel) k ⟨.select, n⟩ =
        Generator.roundsFrom n N ++ Generator.exec ctx fuel (k + N) ⟨.select, Generator.nAfter n N⟩ := by
  intro N
  induction N with
  | zero => intro k n fuel _; simp [Generator.roundsFrom, Generator.nAfter]
  | succ N ih =>
    intro k n fuel h
    have h0 : ctx k = false := by simpa using h 0 (Nat.succ_pos N)
    have hr : 3 * (N + 1) + fuel = (3 * N + fuel) + 1 + 1 + 1 := by ring
    rw [hr]
    simp only [Generator.exec, Generator.step, h0, Generator.roundsFrom, Generator.nAfter]
    simp
    rw [ih (k + 1) (wrap64 (n + 1)) fuel (fun j hj => by
      have := h (j + 1) (by omega)
      rwa [show k + (j + 1) = k + 1 + j by ring] at this)]
    congr 2
    ring_nf

theorem Generator.roundsFrom_eq_rounds : ∀ (N : Nat) (a : Int),
    -2 ^ 63 ≤ a + 1 → a + N < 2 ^ 63 → Generator.roundsFrom (a + 1) N = Generator.rounds a N := by
  intro N
  induction N with
  | zero => intro a _ _; rfl
  | succ N ih =>
    intro a h1 h2
    simp only [Generator.roundsFrom, Generator.rounds]
    push_cast at h2
    cases N with
    | zero => rfl
    | succ M =>
      push_cast at h2
      rw [wrap64_of_range (by omega) (by omega), ih (a + 1) (by omega) (by push_cast; omega)]

theorem GenEv.genEv_sends_append (xs ys : List GenEv) :
    GenEv.sends (xs ++ ys) = GenEv.sends xs ++ GenEv.sends ys := by
  induction xs with
  | nil => rfl
  | cons e es ih => cases e <;> simp [GenEv.sends, ih]

theorem GenEv.calls_append (xs ys : List GenEv) :
    GenEv.calls (xs ++ ys) = GenEv.calls xs ++ GenEv.calls ys := by
  induction xs with
  | nil => rfl
  | cons e es ih => cases e <;> simp [GenEv.calls, ih]

theorem Generator.generator_sends_rounds : ∀ (N : Nat) (a : Int),
    GenEv.sends (Generator.rounds a N) = upTo a N := by
  intro N
  induction N with
  | zero => intro a; rfl
  | succ N ih => intro a; simp [Generator.rounds, GenEv.sends, upTo, ih]

theorem Generator.calls_rounds : ∀ (N : Nat) (a : Int),
    GenEv.calls (Generator.rounds a N) = upTo a N := by
  intro N
  induction N with
  | zero => intro a; rfl
  | succ N ih => intro a; simp [Generator.rounds, GenEv.calls, upTo, ih]

theorem Generator.sends_roundsFrom_length : ∀ (N : Nat) (n : Int),
    (GenEv.sends (Generator.roundsFrom n N)).length = N := by
  intro N
  induction N with
  | zero => intro n; rfl
  | succ N ih => intro n; simp [Generator.roundsFrom, GenEv.sends, ih]

theorem Generator.sends_roundsFrom_lt : ∀ (N : Nat) (n : Int), n < 2 ^ 63 →
    ∀ v ∈ GenEv.sends (Generator.roundsFrom n N), v < 2 ^ 63 := by
  intro N
  induction N with
  | zero => intro n _ v hv; simp [Generator.roundsFrom, GenEv.sends] at hv
  | succ N ih =>
    intro n hn v hv
    simp only [Generator.roundsFrom, GenEv.sends, List.mem_cons] at hv
    rcases hv with rfl | hv
    · exact hn
    · exact ih _ (wrap64_lt _) v hv

theorem mem_upTo_last : ∀ (N : Nat) (a : Int), a + (N + 1 : Nat) ∈ upTo a (N + 1) := by
  intro N
  induction N with
  | zero => intro a; simp [upTo]
  | succ N ih =>
    intro a
    rw [upTo]
    apply List.mem_cons_of_mem
    have := ih (a + 1)
    rwa [show a + 1 + ((N + 1 : Nat) : Int) = a + ((N + 1 + 1 : Nat) : Int) by push_cast; ring] at this

/-- Shape of every run around a `close`. -/
theorem Generator.exec_close_split (ctx : Nat → Bool) :
    ∀ (fuel k : Nat) (g : Gen) (pre post : List GenEv),
      Generator.exec ctx fuel k g = pre ++ .close :: post →
        post = [] ∧ .close ∉ pre ∧
          (if g.pc = .close then pre = [] else pre.getLast? = some .ctxDone) := by
  intro fuel
  induction fuel with
  | zero => intro k g pre post h; simp [Generator.exec] at h
  | succ fuel ih =>
    intro k g pre post h
    obtain ⟨pc, n⟩ := g
    cases pc with
    | halted => simp [Generator.exec, Generator.step] at h
    | close =>
      simp only [Generator.exec, Generator.step, Generator.generator_exec_halted] at h
      rcases List.cons_eq_append_iff.mp h with ⟨rfl, h2⟩ | ⟨c, _, h2⟩
      · simp at h2; simp [h2]
      · simp at h2
    | select =>
      simp only [Generator.exec, Generator.step] at h
      cases hc : ctx k with
      | true =>
        simp only [hc, if_true] at h
        rcases List.cons_eq_append_iff.mp h with ⟨_, h2⟩ | ⟨c, rfl, h2⟩
        · simp at h2
        · have := ih _ _ _ _ h2
          simp at this
          obtain ⟨h3, _, h4⟩ := this
          subst h4
          simp [h3]
      | false =>
        simp only [hc] at h
        rcases List.cons_eq_append_iff.mp h with ⟨_, h2⟩ | ⟨c, rfl, h2⟩
        · simp at h2
        · have := ih _ _ _ _ h2
          simp at this
          obtain ⟨h3, h4, h5⟩ := this
          refine ⟨h3, by simp [h4], ?_⟩
          simp
          rw [List.getLast?_cons, h5]; rfl
    | send =>
      simp only [Generator.exec, Generator.step] at h
      rcases List.cons_eq_append_iff.mp h with ⟨_, h2⟩ | ⟨c, rfl, h2⟩
      · simp at h2
      · have := ih _ _ _ _ h2
        simp at this
        obtain ⟨h3, h4, h5⟩ := this
        refine ⟨h3, by simp [h4], ?_⟩
        simp
        rw [List.getLast?_cons, h5]; rfl
    | call =>
      simp only [Generator.exec, Generator.step] at h
      rcases List.cons_eq_append_iff.mp h with ⟨_, h2⟩ | ⟨c, rfl, h2⟩
      · simp at h2
      · have := ih _ _ _ _ h2
        simp at this
        obtain ⟨h3, h4, h5⟩ := this
        refine ⟨h3, by simp [h4], ?_⟩
        simp
        rw [List.getLast?_cons, h5]; rfl

/-! ### Runs of `Worker` -/

theorem Worker.worker_exec_halted (fuel : Nat) (ins : List Int) : Worker.exec fuel ins .halted = [] := by
  cases fuel <;> simp [Worker.exec, Worker.step]

theorem Worker.exec_recv_cons (fuel : Nat) (v : Int) (vs : List Int) :
    Worker.exec (fuel + 1) (v :: vs) .recv = .recv v :: Worker.exec fuel vs (.send v) := by
  simp [Worker.exec, Worker.step]

theorem Worker.exec_recv_nil (fuel : Nat) :
    Worker.exec (fuel + 1) [] .recv = .eof :: Worker.exec fuel [] .close := by
  simp [Worker.exec, Worker.step]

theorem Worker.exec_send (fuel : Nat) (ins : List Int) (v : Int) :
    Worker.exec (fuel + 1) ins (.send v) = .send v :: Worker.exec fuel ins .sleep := by
  simp [Worker.exec, Worker.step]

theorem Worker.exec_sleep (fuel : Nat) (ins : List Int) :
    Worker.exec (fuel + 1) ins .sleep = .sleep 1 :: Worker.exec fuel ins .recv := by
  simp [Worker.exec, Worker.step]

theorem Worker.worker_exec_close (fuel : Nat) (ins : List Int) :
    Worker.exec (fuel + 1) ins .close = [.close] := by
  simp [Worker.exec, Worker.step, Worker.worker_exec_halted]

theorem Worker.worker_exec_rounds : ∀ (ins : List Int) (fuel : Nat),
    Worker.exec (3 * ins.length + (fuel + 2)) ins .recv = Worker.rounds ins ++ [.eof, .close] := by
  intro ins
  induction ins with
  | nil =>
    intro fuel
    rw [show 3 * ([] : List Int).length + (fuel + 2) = fuel + 1 + 1 by simp,
      Worker.exec_recv_nil, Worker.worker_exec_close]
    rfl
  | cons v vs ih =>
    intro fuel
    have hr : 3 * (v :: vs).length + (fuel + 2) = (3 * vs.length + (fuel + 2)) + 1 + 1 + 1 := by
      simp only [List.length_cons]; ring
    rw [hr, Worker.exec_recv_cons, Worker.exec_send, Worker.exec_sleep, ih]
    rfl

theorem WorkerEv.workerEv_sends_append (xs ys : List WorkerEv) :
    WorkerEv.sends (xs ++ ys) = WorkerEv.sends xs ++ WorkerEv.sends ys := by
  induction xs with
  | nil => rfl
  | cons e es ih => cases e <;> simp [WorkerEv.sends, ih]

theorem WorkerEv.recvs_append (xs ys : List WorkerEv) :
    WorkerEv.recvs (xs ++ ys) = WorkerEv.recvs xs ++ WorkerEv.recvs ys := by
  induction xs with
  | nil => rfl
  | cons e es ih => cases e <;> simp [WorkerEv.recvs, ih]

theorem Worker.worker_sends_rounds (ins : List Int) : WorkerEv.sends (Worker.rounds ins) = ins := by
  induction ins with
  | nil => rfl
  | cons v vs ih => simp [Worker.rounds, WorkerEv.sends, ih]

theorem Worker.recvs_rounds (ins : List Int) : WorkerEv.recvs (Worker.rounds ins) = ins := by
  induction ins with
  | nil => rfl
  | cons v vs ih => simp [Worker.rounds, WorkerEv.recvs, ih]

theorem Worker.close_not_mem_rounds (ins : List Int) : WorkerEv.close ∉ Worker.rounds ins := by
  induction ins with
  | nil => simp [Worker.rounds]
  | cons v vs ih => simp [Worker.rounds, ih]

theorem Worker.eq_rounds (ins : List Int) (fuel : Nat) (hfuel : 3 * ins.length + 2 ≤ fuel) :
    Worker ins fuel = Worker.rounds ins ++ [.eof, .close] := by
  obtain ⟨r, rfl⟩ : ∃ r, fuel = 3 * ins.length + (r + 2) := ⟨fuel - (3 * ins.length + 2), by omega⟩
  exact Worker.worker_exec_rounds ins r

theorem Worker.writeThenSleep_rounds (ins : List Int) (tl : List WorkerEv)
    (h : WorkerEv.writeThenSleep tl = true) :
    WorkerEv.writeThenSleep (Worker.rounds ins ++ tl) = true := by
  induction ins with
  | nil => simpa [Worker.rounds] using h
  | cons v vs ih => simp [Worker.rounds, WorkerEv.writeThenSleep, ih]

/-! ### Tables and sums over the goroutines -/

@[simp] theorem upd_apply {α : Type} (f : Nat → α) (i : Nat) (x : α) (j : Nat) :
    upd f i x j = if j = i then x else f j := rfl

theorem sumTo_congr (g h : Nat → Nat) : ∀ K, (∀ i, i < K → g i = h i) → sumTo g K = sumTo h K := by
  intro K
  induction K with
  | zero => intro _; rfl
  | succ K ih =>
    intro hh
    simp only [sumTo]
    rw [ih (fun i hi => hh i (by omega)), hh K (by omega)]

/-- Changing one entry of a table changes the sum by the difference. -/
theorem sumTo_upd {α : Type} (F : α → Nat) (f : Nat → α) (i : Nat) (x : α) :
    ∀ K, i < K → sumTo (fun j => F (upd f i x j)) K + F (f i) = sumTo (fun j => F (f j)) K + F x := by
  intro K
  induction K with
  | zero => intro h; omega
  | succ K ih =>
    intro h
    simp only [sumTo]
    by_cases hi : i = K
    · subst hi
      have := sumTo_congr (fun j => F (upd f i x j)) (fun j => F (f j)) i (fun j hj => by
        simp [upd_apply, Nat.ne_of_lt hj])
      rw [this]
      simp
      omega
    · have := ih (by omega)
      have e : upd f i x K = f K := by simp [upd_apply, Ne.symm hi]
      rw [e]
      omega

theorem sumTo_upd_ge {α : Type} (F : α → Nat) (f : Nat → α) (i : Nat) (x : α) (K : Nat) (h : K ≤ i) :
    sumTo (fun j => F (upd f i x j)) K = sumTo (fun j => F (f j)) K :=
  sumTo_congr _ _ K (fun j hj => by simp [upd_apply, Nat.ne_of_lt (Nat.lt_of_lt_of_le hj h)])

theorem sumTo_eq_zero (g : Nat → Nat) : ∀ K, sumTo g K = 0 → ∀ i, i < K → g i = 0 := by
  intro K
  induction K with
  | zero => intro _ i hi; omega
  | succ K ih =>
    intro h i hi
    simp only [sumTo] at h
    by_cases e : i = K
    · subst e; omega
    · exact ih (by omega) i (by omega)

theorem sumTo_pos (g : Nat → Nat) : ∀ K, 0 < sumTo g K → ∃ i, i < K ∧ 0 < g i := by
  intro K
  induction K with
  | zero => intro h; simp [sumTo] at h
  | succ K ih =>
    intro h
    simp only [sumTo] at h
    by_cases e : 0 < g K
    · exact ⟨K, by omega, e⟩
    · obtain ⟨i, hi, hg⟩ := ih (by omega)
      exact ⟨i, by omega, hg⟩

/-! ### The invariant of the control state -/

theorem Inv.inv_init (K : Nat) : Inv K init := by
  constructor <;> try (simp [Pipeline.init, MainPC.workers, MainPC.relays, MainPC.adds, MainPC.closer, sumTo]; done)
  intro i
  constructor <;> simp [Pipeline.init, MainPC.workers, MainPC.relays, MainPC.adds, MainPC.closer, sumTo]

theorem Inv.deadline {K : Nat} {s s' : State} (h : Inv K s) (hs : stepDeadline s = some s') :
    Inv K s' := by
  unfold stepDeadline at hs
  split at hs
  · simp at hs
  · simp at hs; subst hs
    obtain ⟨h1, h2, h3, h4, h5, h6, h7, h8, h9, h10, h11⟩ := h
    exact ⟨h1, h2, h3, h4, h5, h6, h7, h8, h9, h10, fun i => by
      obtain ⟨a, b, c, d, e, f⟩ := h11 i
      exact ⟨a, b, c, d, e, f⟩⟩

/-! ### The step functions land in the step relations -/

theorem stepMain_sound {K : Nat} {s s' : State} (hs : stepMain K s = some s') : MainStep K s s' := by
  unfold stepMain at hs
  split at hs
  · simp only [Option.some.injEq] at hs; subst hs; exact .spawnGen (by assumption)
  · split at hs
    · simp only [Option.some.injEq] at hs; subst hs; exact .spawnWorker _ (by assumption) (by assumption)
    · simp only [Option.some.injEq] at hs; subst hs; exact .workersDone _ (by assumption) (by assumption)
  · split at hs
    · simp only [Option.some.injEq] at hs; subst hs; exact .wgAdd _ (by assumption) (by assumption)
    · simp only [Option.some.injEq] at hs; subst hs; exact .relaysDone _ (by assumption) (by assumption)
  · simp only [Option.some.injEq] at hs; subst hs; exact .spawnRelay _ (by assumption)
  · simp only [Option.some.injEq] at hs; subst hs; exact .spawnCloser (by assumption)
  · split at hs
    · simp only [Option.some.injEq] at hs; subst hs; exact .recv _ _ (by assumption) (by assumption)
    · split at hs
      · simp only [Option.some.injEq] at hs; subst hs
        exact .recvClosed (by assumption) (by assumption) (by assumption)
      · simp at hs
  · simp only [Option.some.injEq] at hs; subst hs; exact .addCount _ (by assumption)
  · simp only [Option.some.injEq] at hs; subst hs; exact .addSum _ (by assumption)
  · simp only [Option.some.injEq] at hs; subst hs; exact .verify (by assumption)
  · simp at hs

theorem stepGen_sound {s s' : State} (hs : stepGen s = some s') : GenStep s s' := by
  unfold stepGen at hs
  cases hg : s.gen with
  | none => simp [hg] at hs
  | some g =>
    obtain ⟨pc, n⟩ := g
    rw [hg] at hs
    cases pc
    · cases hd : s.deadline
      · have t := GenStep.dflt n hg hd
        simp [Generator.step, hd] at hs t; subst hs; exact t
      · have t := GenStep.ctxDone n hg hd
        simp [Generator.step, hd] at hs t; subst hs; exact t
    · cases hc : s.chInClosed
      · simp [Generator.step, hc] at hs
      · have t := GenStep.sendPanic n hg hc
        simp [Generator.step, hc] at hs t; subst hs; (convert t using 2; simp [*])
    · cases hc : s.cb
      · have t := GenStep.addSum n hg hc
        simp [Generator.step, hc] at hs t; subst hs; (convert t using 2; simp [*])
      · have t := GenStep.addCount n hg hc
        simp [Generator.step, hc] at hs t; subst hs; exact t
    · cases hc : s.chInClosed
      · have t := GenStep.close n hg hc
        simp [Generator.step, hc] at hs t; subst hs; exact t
      · have t := GenStep.closePanic n hg hc
        simp [Generator.step, hc] at hs t; subst hs; (convert t using 2; simp [*])
    · simp [Generator.step] at hs

theorem chInOffer_eq (s : State) :
    chInOffer s = match s.gen with
      | some ⟨.send, n⟩ => some (n, ⟨.call, n⟩)
      | _ => none := by
  unfold chInOffer
  cases hg : s.gen with
  | none => rfl
  | some g =>
    obtain ⟨pc, n⟩ := g
    cases pc <;> cases s.deadline <;> simp [Generator.step]

theorem outOffer_eq (s : State) (i : Nat) :
    outOffer s i = match s.wk i with
      | some (.send v) => some (v, .sleep)
      | _ => none := by
  unfold outOffer
  cases hw : s.wk i with
  | none => rfl
  | some w => cases w <;> simp [Worker.step]

theorem stepWorker_sound {s s' : State} {i : Nat} (hs : stepWorker s i = some s') :
    WorkerStep s i s' := by
  unfold stepWorker at hs
  rw [chInOffer_eq] at hs
  cases hw : s.wk i with
  | none => simp [hw] at hs
  | some w =>
    rw [hw] at hs
    cases w with
    | recv =>
      cases hc : s.chInClosed
      · cases hg : s.gen with
        | none => simp [hg, hc, Worker.step] at hs
        | some g =>
          obtain ⟨pc, n⟩ := g
          cases pc
          case send =>
            have t := WorkerStep.recv n hw hg
            simp [hg, hc, Worker.step] at hs t; subst hs; exact t
          all_goals simp [hg, hc, Worker.step] at hs
      · cases hg : s.gen with
        | none =>
          have t := WorkerStep.eof hw hc
          simp [hg, hc, Worker.step] at hs t; subst hs; exact t
        | some g =>
          obtain ⟨pc, n⟩ := g
          cases pc
          case send =>
            have t := WorkerStep.recv n hw hg
            simp [hg, hc, Worker.step] at hs t; subst hs; exact t
          all_goals (
            have t := WorkerStep.eof hw hc
            simp [hg, hc, Worker.step] at hs t; subst hs; exact t)
    | send v =>
      cases hc : s.outsClosed i
      · simp [Worker.step, hc] at hs
      · have t := WorkerStep.sendPanic v hw hc
        simp [Worker.step, hc] at hs t; subst hs; exact t
    | sleep =>
      have t := WorkerStep.sleep hw
      simp [Worker.step] at hs t; subst hs; exact t
    | close =>
      cases hc : s.outsClosed i
      · have t := WorkerStep.close hw hc
        simp [Worker.step, hc] at hs t; subst hs; exact t
      · have t := WorkerStep.closePanic hw hc
        simp [Worker.step, hc] at hs t; subst hs; exact t
    | halted => simp [Worker.step] at hs

theorem stepRelay_sound {K : Nat} {s s' : State} {i : Nat} (hs : stepRelay K s i = some s') :
    RelayStep K s i s' := by
  unfold stepRelay at hs
  rw [outOffer_eq] at hs
  cases hr : s.rl i with
  | none => simp [hr] at hs
  | some r =>
    rw [hr] at hs
    cases r with
    | recv =>
      cases hc : s.outsClosed i
      · cases hw : s.wk i with
        | none => simp [hw, hc] at hs
        | some w =>
          cases w
          case send v =>
            have t := RelayStep.recv (K := K) v hr hw
            simp [hw, hc] at hs t; subst hs; exact t
          all_goals simp [hw, hc] at hs
      · cases hw : s.wk i with
        | none =>
          have t := RelayStep.eof (K := K) hr (by simp [hw]) hc
          simp [hw, hc] at hs t; subst hs; exact t
        | some w =>
          cases w
          case send v =>
            have t := RelayStep.recv (K := K) v hr hw
            simp [hw, hc] at hs t; subst hs; exact t
          all_goals (
            have t := RelayStep.eof (K := K) hr (by simp [hw]) hc
            simp [hw, hc] at hs t; subst hs; exact t)
    | send v =>
      by_cases hc : 0 < s.chOutCloses
      · have t := RelayStep.sendPanic (K := K) v hr hc
        simp [hc] at hs t; subst hs; exact t
      · by_cases hl : s.chOut.length < K
        · have t := RelayStep.send v hr hc hl
          simp [hc, hl] at hs; subst hs; exact t
        · simp [hc, hl] at hs
    | wgDone =>
      by_cases hc : s.wg = 0
      · have t := RelayStep.donePanic (K := K) hr hc
        simp [hc] at hs; subst hs; (convert t using 2; simp [*])
      · have t := RelayStep.done (K := K) hr hc
        simp [hc] at hs; subst hs; exact t
    | halted => simp at hs

theorem stepCloser_sound {s s' : State} (hs : stepCloser s = some s') : CloserStep s s' := by
  unfold stepCloser at hs
  cases hc : s.cl with
  | none => simp [hc] at hs
  | some c =>
    rw [hc] at hs
    cases c with
    | wait =>
      by_cases hw : s.wg = 0
      · have t := CloserStep.wait hc hw
        simp [hw] at hs; subst hs; (convert t using 2; simp [*])
      · simp [hw] at hs
    | close =>
      by_cases hw : 0 < s.chOutCloses
      · have t := CloserStep.closePanic hc hw
        simp [hw] at hs; subst hs; (convert t using 2; simp [*])
      · have t := CloserStep.close hc hw
        simp [hw] at hs; subst hs; exact t
    | halted => simp at hs

/-! ### The invariant of the control state is preserved -/

set_option maxHeartbeats 4000000 in
/-- The steps of `main` preserve the invariant. -/
theorem Inv.main {K : Nat} {s s' : State} (h : Inv K s) (hs : stepMain K s = some s') :
    Inv K s' := by
  obtain ⟨h1, h2, h3, h4, h5, h6, h7, h8, h9, h10, hidx⟩ := h
  unfold stepMain at hs
  split at hs
  all_goals rename_i hpc
  all_goals simp only [hpc, MainPC.workers, MainPC.relays, MainPC.adds, MainPC.closer] at h2 h3 h4 h5 h6 h8 h10
  · -- spawnGen
    simp only [Option.some.injEq] at hs
    subst hs
    constructor
    all_goals dsimp only
    all_goals first | assumption | (simp [MainPC.workers, MainPC.relays, MainPC.adds, MainPC.closer, *]; done) | skip
    · simp [Generator.init]
      cases hc : s.chInClosed
      · rfl
      · obtain ⟨n, hn⟩ := h7.mp hc
        rw [h5.mpr trivial] at hn
        simp at hn
    · intro j
      obtain ⟨j1, j2, j3, j4, j5, j6⟩ := hidx j
      simp only [hpc, MainPC.workers, MainPC.relays, MainPC.adds, MainPC.closer] at j1 j2
      constructor <;> simp_all [MainPC.workers, MainPC.relays]
  · -- spawnWorker
    rename_i a
    split at hs
    all_goals simp only [Option.some.injEq] at hs
    all_goals subst hs
    all_goals constructor
    all_goals dsimp only
    all_goals first
      | assumption
      | (simp [MainPC.workers, MainPC.relays, MainPC.adds, MainPC.closer, *]; done)
      | (intros; simp [MainPC.workers, MainPC.relays, MainPC.adds, MainPC.closer, *] at *; omega)
      | (simp_all [MainPC.workers, MainPC.relays, MainPC.adds, MainPC.closer]; done)
      | skip
    all_goals intro j
    all_goals obtain ⟨j1, j2, j3, j4, j5, j6⟩ := hidx j
    all_goals obtain ⟨a1, a2, a3, a4, a5, a6⟩ := hidx a
    all_goals simp only [hpc, MainPC.workers, MainPC.relays, MainPC.adds, MainPC.closer] at j1 j2 a1 a2
    all_goals clear hidx
    all_goals constructor
    all_goals dsimp only
    all_goals (by_cases e : j = a <;> simp_all [MainPC.workers, MainPC.relays] <;> omega)
  · -- wgAdd
    rename_i a
    split at hs
    all_goals simp only [Option.some.injEq] at hs
    all_goals subst hs
    all_goals constructor
    all_goals dsimp only
    all_goals first
      | assumption
      | (simp [MainPC.workers, MainPC.relays, MainPC.adds, MainPC.closer, *]; done)
      | (intros; simp [MainPC.workers, MainPC.relays, MainPC.adds, MainPC.closer, *] at *; omega)
      | (simp_all [MainPC.workers, MainPC.relays, MainPC.adds, MainPC.closer]; done)
      | skip
    · simp only [MainPC.adds, sumTo]
      have := ((hidx a).rlS).mpr (by simp [hpc, MainPC.relays])
      rw [← h8, this]
      rfl
    · intro j
      obtain ⟨j1, j2, j3, j4, j5, j6⟩ := hidx j
      simp only [hpc, MainPC.workers, MainPC.relays, MainPC.adds, MainPC.closer] at j1 j2
      constructor <;> simp_all [MainPC.workers, MainPC.relays]
    · have : a = K := by have := h3 a rfl; omega
      subst this
      simpa [MainPC.adds] using h8
    · intro j
      obtain ⟨j1, j2, j3, j4, j5, j6⟩ := hidx j
      simp only [hpc, MainPC.workers, MainPC.relays, MainPC.adds, MainPC.closer] at j1 j2
      have : a = K := by have := h3 a rfl; omega
      subst this
      constructor <;> simp_all [MainPC.workers, MainPC.relays]
  · -- spawnRelay
    rename_i a
    simp only [Option.some.injEq] at hs
    subst hs
    all_goals constructor
    all_goals dsimp only
    all_goals first
      | assumption
      | (simp [MainPC.workers, MainPC.relays, MainPC.adds, MainPC.closer, *]; done)
      | (intros; simp [MainPC.workers, MainPC.relays, MainPC.adds, MainPC.closer, *] at *; omega)
      | (simp_all [MainPC.workers, MainPC.relays, MainPC.adds, MainPC.closer]; done)
      | skip
    · have := sumTo_upd owes s.rl a (some .recv) (a + 1) (by omega)
      have e := ((hidx a).rlS).mpr (by simp [hpc, MainPC.relays])
      rw [e] at this
      have o1 : owes (none : Option RelayPC) = 1 := rfl
      have o2 : owes (some RelayPC.recv) = 1 := rfl
      rw [o1, o2] at this
      simp only [MainPC.adds]
      omega
    all_goals intro j
    all_goals obtain ⟨j1, j2, j3, j4, j5, j6⟩ := hidx j
    all_goals obtain ⟨a1, a2, a3, a4, a5, a6⟩ := hidx a
    all_goals simp only [hpc, MainPC.workers, MainPC.relays, MainPC.adds, MainPC.closer] at j1 j2 a1 a2
    all_goals clear hidx
    all_goals constructor
    all_goals dsimp only
    all_goals (by_cases e : j = a <;> simp_all [MainPC.workers, MainPC.relays] <;> omega)
  · -- spawnCloser
    simp only [Option.some.injEq] at hs
    subst hs
    all_goals constructor
    all_goals dsimp only
    all_goals first
      | assumption
      | (simp [MainPC.workers, MainPC.relays, MainPC.adds, MainPC.closer, *]; done)
      | (intros; simp [MainPC.workers, MainPC.relays, MainPC.adds, MainPC.closer, *] at *; omega)
      | (simp_all [MainPC.workers, MainPC.relays, MainPC.adds, MainPC.closer]; done)
      | skip
    all_goals intro j
    all_goals obtain ⟨j1, j2, j3, j4, j5, j6⟩ := hidx j
    all_goals simp only [hpc, MainPC.workers, MainPC.relays, MainPC.adds, MainPC.closer] at j1 j2
    all_goals clear hidx
    all_goals constructor
    all_goals dsimp only
    all_goals (simp_all [MainPC.workers, MainPC.relays])
  · -- recv
    split at hs
    · simp only [Option.some.injEq] at hs
      subst hs
      all_goals constructor
      all_goals dsimp only
      all_goals first
        | assumption
        | (simp [MainPC.workers, MainPC.relays, MainPC.adds, MainPC.closer, *]; done)
        | (intros; simp [MainPC.workers, MainPC.relays, MainPC.adds, MainPC.closer, *] at *; omega)
        | (simp_all [MainPC.workers, MainPC.relays, MainPC.adds, MainPC.closer]; done)
        | skip
      all_goals intro j
      all_goals obtain ⟨j1, j2, j3, j4, j5, j6⟩ := hidx j
      all_goals simp only [hpc, MainPC.workers, MainPC.relays, MainPC.adds, MainPC.closer] at j1 j2
      all_goals clear hidx
      all_goals constructor
      all_goals dsimp only
      all_goals (simp_all [MainPC.workers, MainPC.relays])
    · split at hs
      · simp only [Option.some.injEq] at hs
        subst hs
        all_goals constructor
        all_goals dsimp only
        all_goals first
          | assumption
          | (simp [MainPC.workers, MainPC.relays, MainPC.adds, MainPC.closer, *]; done)
          | (intros; simp [MainPC.workers, MainPC.relays, MainPC.adds, MainPC.closer, *] at *; omega)
          | (simp_all [MainPC.workers, MainPC.relays, MainPC.adds, MainPC.closer]; done)
          | skip
        · intro _
          refine ⟨by assumption, ?_⟩
          by_cases hc : s.cl = some CloserPC.halted
          · exact hc
          · rw [h9, if_neg hc] at *
            omega
        all_goals intro j
        all_goals obtain ⟨j1, j2, j3, j4, j5, j6⟩ := hidx j
        all_goals simp only [hpc, MainPC.workers, MainPC.relays, MainPC.adds, MainPC.closer] at j1 j2
        all_goals clear hidx
        all_goals constructor
        all_goals dsimp only
        all_goals (simp_all [MainPC.workers, MainPC.relays])
      · simp at hs
  · -- addCount
    simp only [Option.some.injEq] at hs
    subst hs
    all_goals constructor
    all_goals dsimp only
    all_goals first
      | assumption
      | (simp [MainPC.workers, MainPC.relays, MainPC.adds, MainPC.closer, *]; done)
      | (intros; simp [MainPC.workers, MainPC.relays, MainPC.adds, MainPC.closer, *] at *; omega)
      | (simp_all [MainPC.workers, MainPC.relays, MainPC.adds, MainPC.closer]; done)
      | skip
    all_goals intro j
    all_goals obtain ⟨j1, j2, j3, j4, j5, j6⟩ := hidx j
    all_goals simp only [hpc, MainPC.workers, MainPC.relays, MainPC.adds, MainPC.closer] at j1 j2
    all_goals clear hidx
    all_goals constructor
    all_goals dsimp only
    all_goals (simp_all [MainPC.workers, MainPC.relays])
  · -- addSum
    simp only [Option.some.injEq] at hs
    subst hs
    all_goals constructor
    all_goals dsimp only
    all_goals first
      | assumption
      | (simp [MainPC.workers, MainPC.relays, MainPC.adds, MainPC.closer, *]; done)
      | (intros; simp [MainPC.workers, MainPC.relays, MainPC.adds, MainPC.closer, *] at *; omega)
      | (simp_all [MainPC.workers, MainPC.relays, MainPC.adds, MainPC.closer]; done)
      | skip
    all_goals intro j
    all_goals obtain ⟨j1, j2, j3, j4, j5, j6⟩ := hidx j
    all_goals simp only [hpc, MainPC.workers, MainPC.relays, MainPC.adds, MainPC.closer] at j1 j2
    all_goals clear hidx
    all_goals constructor
    all_goals dsimp only
    all_goals (simp_all [MainPC.workers, MainPC.relays])
  · -- verify
    simp only [Option.some.injEq] at hs
    subst hs
    all_goals constructor
    all_goals dsimp only
    all_goals first
      | assumption
      | (simp [MainPC.workers, MainPC.relays, MainPC.adds, MainPC.closer, *]; done)
      | (intros; simp [MainPC.workers, MainPC.relays, MainPC.adds, MainPC.closer, *] at *; omega)
      | (simp_all [MainPC.workers, MainPC.relays, MainPC.adds, MainPC.closer]; done)
      | skip
    all_goals intro j
    all_goals obtain ⟨j1, j2, j3, j4, j5, j6⟩ := hidx j
    all_goals simp only [hpc, MainPC.workers, MainPC.relays, MainPC.adds, MainPC.closer] at j1 j2
    all_goals clear hidx
    all_goals constructor
    all_goals dsimp only
    all_goals (simp_all [MainPC.workers, MainPC.relays])
  · simp at hs

/-- While `Generator` has not returned `chIn` is open. -/
theorem Inv.gen_open {K : Nat} {s : State} (h : Inv K s) {pc : GenPC} {n : Int}
    (hg : s.gen = some ⟨pc, n⟩) (hpc : pc ≠ .halted) : s.chInClosed = false := by
  cases hc : s.chInClosed
  · rfl
  · obtain ⟨m, hm⟩ := h.chIn.mp hc
    rw [hg] at hm
    simp only [Option.some.injEq, Gen.mk.injEq] at hm
    exact absurd hm.1 hpc

set_option maxHeartbeats 4000000 in
/-- The steps of `Generator` preserve the invariant. -/
theorem Inv.inv_genStep {K : Nat} {s s' : State} (h : Inv K s) (hs : GenStep s s') :
    Inv K s' := by
  have hopen := @Inv.gen_open K s h
  obtain ⟨h1, h2, h3, h4, h5, h6, h7, h8, h9, h10, hidx⟩ := h
  cases hs with
  | sendPanic n hg hc => have := hopen hg (by decide); simp [hc] at this
  | closePanic n hg hc => have := hopen hg (by decide); simp [hc] at this
  | ctxDone n hg hc | dflt n hg hc | addCount n hg hc | addSum n hg hc | close n hg hc =>
    have ho := hopen hg (by decide)
    clear hopen
    constructor
    all_goals dsimp only
    all_goals first
      | assumption
      | (simp [*]; done)
      | (simp_all; done)
      | skip
    all_goals intro j
    all_goals obtain ⟨j1, j2, j3, j4, j5, j6⟩ := hidx j
    all_goals clear hidx
    all_goals constructor
    all_goals dsimp only
    all_goals first
      | assumption
      | simp_all

theorem Inv.workers_le {K : Nat} {s : State} (h : Inv K s) : s.pc.workers K ≤ K := by
  have := h.bW
  cases hpc : s.pc with
  | spawnWorker i => exact this i hpc
  | spawnGen | wgAdd _ | spawnRelay _ | spawnCloser | recv | addCount _ | addSum _ | verify
  | exited _ => simp [MainPC.workers]

theorem Inv.relays_le {K : Nat} {s : State} (h : Inv K s) : s.pc.relays K ≤ s.pc.adds K ∧ s.pc.adds K ≤ K := by
  have h1 := h.bA
  have h2 := h.bR
  cases hpc : s.pc <;> simp [MainPC.relays, MainPC.adds, hpc] at * <;> omega

theorem Inv.wk_lt {K : Nat} {s : State} (h : Inv K s) {i : Nat} {w : WorkerPC}
    (hw : s.wk i = some w) : i < K := by
  have h1 := (h.idx i).wkS
  have h2 := h.workers_le
  rw [hw] at h1
  simp at h1
  omega

theorem Inv.rl_lt {K : Nat} {s : State} (h : Inv K s) {i : Nat} {r : RelayPC}
    (hr : s.rl i = some r) : i < s.pc.adds K ∧ i < K := by
  have h1 := (h.idx i).rlS
  have h2 := h.relays_le
  rw [hr] at h1
  simp at h1
  omega

set_option maxHeartbeats 4000000 in
/-- The steps of a worker preserve the invariant. -/
theorem Inv.inv_workerStep {K : Nat} {s s' : State} {i : Nat} (h : Inv K s) (hs : WorkerStep s i s') :
    Inv K s' := by
  have hi := h.idx i
  obtain ⟨h1, h2, h3, h4, h5, h6, h7, h8, h9, h10, hidx⟩ := h
  cases hs with
  | sendPanic v hw hc => have := hi.outs.mp hc; rw [hw] at this; simp at this
  | closePanic hw hc => have := hi.outs.mp hc; rw [hw] at this; simp at this
  | recv n hw hc | eof hw hc | sleep hw | close hw hc =>
    constructor
    all_goals dsimp only
    all_goals first
      | assumption
      | (simp [*]; done)
      | (simp_all; done)
      | skip
    all_goals intro j
    all_goals obtain ⟨j1, j2, j3, j4, j5, j6⟩ := hidx j
    all_goals obtain ⟨a1, a2, a3, a4, a5, a6⟩ := hi
    all_goals clear hidx
    all_goals constructor
    all_goals dsimp only
    all_goals (by_cases e : j = i <;> simp_all)

theorem sumTo_ge (g : Nat → Nat) : ∀ K i, i < K → g i ≤ sumTo g K := by
  intro K
  induction K with
  | zero => intro i hi; omega
  | succ K ih =>
    intro i hi
    simp only [sumTo]
    by_cases e : i = K
    · subst e; omega
    · have := ih i (by omega); omega

/-- While a relay has not returned `chOut` is open and `main` is in its loop. -/
theorem Inv.closes_zero {K : Nat} {s : State} (h : Inv K s) {i : Nat} {r : RelayPC}
    (hr : s.rl i = some r) (hne : r ≠ .halted) : s.chOutCloses = 0 ∧ s.cl ≠ some .halted ∧
      s.cl ≠ some .close ∧ s.pc ≠ .verify ∧ ∀ o, s.pc ≠ .exited o := by
  have hlt := (h.rl_lt hr).2
  have hcl : s.cl ≠ some .halted ∧ s.cl ≠ some .close := by
    constructor
    · intro hc
      have := (h.idx i).clWg (Or.inr hc) hlt
      rw [hr] at this; simp at this; exact hne this
    · intro hc
      have := (h.idx i).clWg (Or.inl hc) hlt
      rw [hr] at this; simp at this; exact hne this
  refine ⟨?_, hcl.1, hcl.2, ?_, ?_⟩
  · rw [h.closes, if_neg hcl.1]
  · intro hp; exact hcl.1 (h.fin (Or.inl hp)).2
  · intro o hp; exact hcl.1 (h.fin (Or.inr ⟨o, hp⟩)).2

set_option maxHeartbeats 4000000 in
/-- The steps of a relay preserve the invariant. -/
theorem Inv.inv_relayStep {K : Nat} {s s' : State} {i : Nat} (h : Inv K s) (hs : RelayStep K s i s') :
    Inv K s' := by
  have hi := h.idx i
  have hlt := @Inv.rl_lt K s h i
  have hcz := @Inv.closes_zero K s h i
  obtain ⟨h1, h2, h3, h4, h5, h6, h7, h8, h9, h10, hidx⟩ := h
  cases hs with
  | sendPanic v hr hc => have := (hcz hr (by simp)).1; omega
  | donePanic hr hc =>
    have := sumTo_ge (fun i => owes (s.rl i)) _ i (hlt hr).1
    have o1 : owes (some RelayPC.wgDone) = 1 := rfl
    simp only [hr, o1] at this
    omega
  | done hr hc =>
    obtain ⟨z1, z2, z3, z4, z5⟩ := hcz hr (by simp)
    have hw := sumTo_upd owes s.rl i (some .halted) _ (hlt hr).1
    rw [hr] at hw
    have o1 : owes (some RelayPC.wgDone) = 1 := rfl
    have o2 : owes (some RelayPC.halted) = 0 := rfl
    rw [o1, o2] at hw
    constructor
    all_goals dsimp only
    all_goals first
      | assumption
      | omega
      | (simp [*]; done)
      | (simp_all; done)
      | skip
    all_goals intro j
    all_goals obtain ⟨j1, j2, j3, j4, j5, j6⟩ := hidx j
    all_goals obtain ⟨a1, a2, a3, a4, a5, a6⟩ := hi
    all_goals clear hidx hw
    all_goals constructor
    all_goals dsimp only
    all_goals (by_cases e : j = i <;> simp_all)
  | recv v hr hc =>
    obtain ⟨z1, z2, z3, z4, z5⟩ := hcz hr (by simp)
    have hw := sumTo_upd owes s.rl i (some (RelayPC.send v)) _ (hlt hr).1
    rw [hr] at hw
    have o1 : owes (some (RelayPC.recv)) = 1 := rfl
    have o2 : owes (some (RelayPC.send v)) = 1 := rfl
    rw [o1, o2] at hw
    constructor
    all_goals dsimp only
    all_goals first
      | assumption
      | omega
      | (simp [*]; done)
      | (simp_all; done)
      | skip
    all_goals intro j
    all_goals obtain ⟨j1, j2, j3, j4, j5, j6⟩ := hidx j
    all_goals obtain ⟨a1, a2, a3, a4, a5, a6⟩ := hi
    all_goals clear hidx hw
    all_goals constructor
    all_goals dsimp only
    all_goals (by_cases e : j = i <;> simp_all)
  | eof hr hw' hc =>
    obtain ⟨z1, z2, z3, z4, z5⟩ := hcz hr (by simp)
    have hw := sumTo_upd owes s.rl i (some RelayPC.wgDone) _ (hlt hr).1
    rw [hr] at hw
    have o1 : owes (some (RelayPC.recv)) = 1 := rfl
    have o2 : owes (some (RelayPC.wgDone)) = 1 := rfl
    rw [o1, o2] at hw
    constructor
    all_goals dsimp only
    all_goals first
      | assumption
      | omega
      | (simp [*]; done)
      | (simp_all; done)
      | skip
    all_goals intro j
    all_goals obtain ⟨j1, j2, j3, j4, j5, j6⟩ := hidx j
    all_goals obtain ⟨a1, a2, a3, a4, a5, a6⟩ := hi
    all_goals clear hidx hw
    all_goals constructor
    all_goals dsimp only
    all_goals (by_cases e : j = i <;> simp_all)
  | send v hr hc hl =>
    obtain ⟨z1, z2, z3, z4, z5⟩ := hcz hr (by simp)
    have hw := sumTo_upd owes s.rl i (some RelayPC.recv) _ (hlt hr).1
    rw [hr] at hw
    have o1 : owes (some (RelayPC.send v)) = 1 := rfl
    have o2 : owes (some (RelayPC.recv)) = 1 := rfl
    rw [o1, o2] at hw
    constructor
    all_goals dsimp only
    all_goals first
      | assumption
      | omega
      | (simp [*]; done)
      | (simp_all; done)
      | skip
    all_goals intro j
    all_goals obtain ⟨j1, j2, j3, j4, j5, j6⟩ := hidx j
    all_goals obtain ⟨a1, a2, a3, a4, a5, a6⟩ := hi
    all_goals clear hidx hw
    all_goals constructor
    all_goals dsimp only
    all_goals (by_cases e : j = i <;> simp_all)

theorem owes_eq_zero {r : Option RelayPC} (h : owes r = 0) : r = some .halted := by
  cases r with
  | none => simp [owes] at h
  | some r => cases r <;> simp [owes] at h ⊢

theorem Inv.adds_eq {K : Nat} {s : State} (h : Inv K s) (hc : s.cl ≠ none) : s.pc.adds K = K := by
  have := h.clS
  cases hpc : s.pc <;> simp [hpc, MainPC.closer, MainPC.adds] at this ⊢ <;> exact absurd this hc

set_option maxHeartbeats 4000000 in
/-- The steps of the closing goroutine preserve the invariant. -/
theorem Inv.inv_closerStep {K : Nat} {s s' : State} (h : Inv K s) (hs : CloserStep s s') :
    Inv K s' := by
  have hadds := @Inv.adds_eq K s h
  obtain ⟨h1, h2, h3, h4, h5, h6, h7, h8, h9, h10, hidx⟩ := h
  cases hs with
  | closePanic hc hp => rw [h9, hc] at hp; simp at hp
  | wait hc hw =>
    have hall : ∀ i, i < K → s.rl i = some .halted := by
      intro i hi
      rw [h8, hadds (by simp [hc])] at hw
      exact owes_eq_zero (sumTo_eq_zero _ K hw i hi)
    constructor
    all_goals dsimp only
    all_goals first
      | assumption
      | (simp [*]; done)
      | (simp_all; done)
      | skip
    all_goals intro j
    all_goals obtain ⟨j1, j2, j3, j4, j5, j6⟩ := hidx j
    all_goals have hj := hall j
    all_goals clear hidx hall
    all_goals constructor
    all_goals dsimp only
    all_goals first
      | assumption
      | simp_all
  | close hc hp =>
    constructor
    all_goals dsimp only
    all_goals first
      | assumption
      | (simp [*]; done)
      | (simp_all; done)
      | skip
    all_goals intro j
    all_goals obtain ⟨j1, j2, j3, j4, j5, j6⟩ := hidx j
    all_goals clear hidx
    all_goals constructor
    all_goals dsimp only
    all_goals first
      | assumption
      | simp_all

/-! ### Conservation and counters -/

theorem wrap64_zero : wrap64 0 = 0 := by decide

theorem wrap64_add_wrap64_left (a b : Int) : wrap64 (wrap64 a + b) = wrap64 (a + b) := by
  unfold wrap64
  have h1 : (a + 2 ^ 63) % 2 ^ 64 - 2 ^ 63 + b + 2 ^ 63 = (a + 2 ^ 63) % 2 ^ 64 + b := by ring
  have h2 : a + b + 2 ^ 63 = a + 2 ^ 63 + b := by ring
  rw [h1, h2, Int.emod_add_emod]

theorem seqW_succ (N : Nat) : seqW (N + 1) = seqW N ++ [wrap64 ((N : Int) + 1)] := by
  simp [seqW, List.range_succ]

theorem sumTo_zero (g : Nat → Nat) : ∀ K, (∀ i, i < K → g i = 0) → sumTo g K = 0 := by
  intro K
  induction K with
  | zero => intro _; rfl
  | succ K ih =>
    intro h
    simp only [sumTo]
    rw [ih (fun i hi => h i (by omega)), h K (by omega)]

theorem Flow.flow_init (K : Nat) : Flow K init := by
  intro a
  simp only [Pipeline.init, hand, handR, List.count_nil]
  rw [sumTo_zero _ K (fun _ _ => rfl)]

theorem GenC.genC_init : GenC init := by
  constructor <;> intros <;> simp_all [Pipeline.init, pending, seqW, wrap64_zero]

theorem MainC.mainC_init : MainC init := by
  constructor <;> intros <;> simp_all [Pipeline.init, wrap64_zero]

theorem Flow.flow_congr {K : Nat} {s s' : State} (h : Flow K s) (h1 : s'.sent = s.sent)
    (h2 : s'.wk = s.wk) (h3 : s'.rl = s.rl) (h4 : s'.chOut = s.chOut) (h5 : s'.got = s.got) :
    Flow K s' := by
  unfold Flow
  rw [h1, h2, h3, h4, h5]
  exact h

theorem GenC.genC_congr {s s' : State} (h : GenC s) (h1 : s'.sent = s.sent)
    (h2 : s'.gen = s.gen) (h3 : s'.cb = s.cb) (h4 : s'.inputCount = s.inputCount)
    (h5 : s'.inputSum = s.inputSum) : GenC s' := by
  obtain ⟨a, b, c, d, e⟩ := h
  constructor
  all_goals rw [h1]
  all_goals (try rw [h2])
  all_goals (try rw [h3])
  all_goals (try rw [h4])
  all_goals (try rw [h5])
  all_goals assumption

theorem MainC.mainC_congr {s s' : State} (h : MainC s) (h1 : s'.pc = s.pc)
    (h2 : s'.got = s.got) (h3 : s'.count = s.count) (h4 : s'.sum = s.sum)
    (h5 : (∃ r, s.pc = .exited r) → s'.inputCount = s.inputCount ∧ s'.inputSum = s.inputSum) :
    MainC s' := by
  obtain ⟨a, b, c, d⟩ := h
  constructor
  · rw [h1, h2, h3, h4]; exact a
  · rw [h1, h2, h3, h4]; exact b
  · rw [h1, h2, h3, h4]; exact c
  · rw [h1, h3, h4]
    intro r hr
    obtain ⟨e1, e2⟩ := h5 ⟨r, hr⟩
    rw [e1, e2]
    exact d r hr

theorem Flow.flow_mainStep {K : Nat} {s s' : State} (hI : Inv K s) (h : Flow K s)
    (hs : MainStep K s s') : Flow K s' := by
  cases hs with
  | spawnWorker a hpc ha =>
    have hw := ((hI.idx a).wkS).mpr (by simp [hpc, MainPC.workers])
    intro x
    have t := sumTo_upd (fun w => (hand w).count x) s.wk a (some .recv) K ha
    beta_reduce at t
    have e := h x
    rw [hw] at t
    have e1 : (hand none).count x = 0 := rfl
    have e2 : (hand (some WorkerPC.recv)).count x = 0 := rfl
    rw [e1, e2] at t
    dsimp only
    omega
  | spawnRelay a hpc =>
    have hw := ((hI.idx a).rlS).mpr (by simp [hpc, MainPC.relays])
    have ha := hI.bR a hpc
    intro x
    have t := sumTo_upd (fun w => (handR w).count x) s.rl a (some .recv) K ha
    beta_reduce at t
    have e := h x
    rw [hw] at t
    have e1 : (handR none).count x = 0 := rfl
    have e2 : (handR (some RelayPC.recv)).count x = 0 := rfl
    rw [e1, e2] at t
    dsimp only
    omega
  | recv v rest hpc hc =>
    intro x
    have e := h x
    rw [hc] at e
    dsimp only
    rw [List.count_cons] at e
    rw [List.count_append, List.count_cons, List.count_nil]
    omega
  | spawnGen hpc | workersDone a hpc ha | wgAdd a hpc ha | relaysDone a hpc ha | spawnCloser hpc
  | recvClosed hpc hc hz | addCount v hpc | addSum v hpc | verify hpc =>
    exact h.flow_congr rfl rfl rfl rfl rfl

theorem Flow.flow_genStep {K : Nat} {s s' : State} (h : Flow K s) (hs : GenStep s s') : Flow K s' := by
  cases hs <;> exact h.flow_congr rfl rfl rfl rfl rfl

theorem Flow.flow_closerStep {K : Nat} {s s' : State} (h : Flow K s) (hs : CloserStep s s') :
    Flow K s' := by
  cases hs <;> exact h.flow_congr rfl rfl rfl rfl rfl

theorem Flow.flow_workerStep {K : Nat} {s s' : State} {i : Nat} (hI : Inv K s) (h : Flow K s)
    (hs : WorkerStep s i s') : Flow K s' := by
  cases hs with
  | sendPanic v hw hc | closePanic hw hc => exact h.flow_congr rfl rfl rfl rfl rfl
  | recv n hw hg =>
    intro x
    have t := sumTo_upd (fun w => (hand w).count x) s.wk i (some (.send n)) K (hI.wk_lt hw)
    beta_reduce at t
    have e := h x
    rw [hw] at t
    have e1 : (hand (some WorkerPC.recv)).count x = 0 := rfl
    have e2 : (hand (some (WorkerPC.send n))).count x = [n].count x := rfl
    rw [e1, e2] at t
    dsimp only
    rw [List.count_append]
    omega
  | eof hw hc =>
    intro x
    have t := sumTo_upd (fun w => (hand w).count x) s.wk i (some .close) K (hI.wk_lt hw)
    beta_reduce at t
    have e := h x
    rw [hw] at t
    have e1 : (hand (some WorkerPC.recv)).count x = 0 := rfl
    have e2 : (hand (some WorkerPC.close)).count x = 0 := rfl
    rw [e1, e2] at t
    dsimp only
    omega
  | sleep hw =>
    intro x
    have t := sumTo_upd (fun w => (hand w).count x) s.wk i (some .recv) K (hI.wk_lt hw)
    beta_reduce at t
    have e := h x
    rw [hw] at t
    have e1 : (hand (some WorkerPC.recv)).count x = 0 := rfl
    have e2 : (hand (some WorkerPC.sleep)).count x = 0 := rfl
    rw [e1, e2] at t
    dsimp only
    omega
  | close hw hc =>
    intro x
    have t := sumTo_upd (fun w => (hand w).count x) s.wk i (some .halted) K (hI.wk_lt hw)
    beta_reduce at t
    have e := h x
    rw [hw] at t
    have e1 : (hand (some WorkerPC.close)).count x = 0 := rfl
    have e2 : (hand (some WorkerPC.halted)).count x = 0 := rfl
    rw [e1, e2] at t
    dsimp only
    omega

theorem Flow.flow_relayStep {K : Nat} {s s' : State} {i : Nat} (hI : Inv K s) (h : Flow K s)
    (hs : RelayStep K s i s') : Flow K s' := by
  cases hs with
  | sendPanic v hw hc | donePanic hw hc => exact h.flow_congr rfl rfl rfl rfl rfl
  | recv v hr hw =>
    intro x
    have t := sumTo_upd (fun w => (hand w).count x) s.wk i (some .sleep) K (hI.wk_lt hw)
    beta_reduce at t
    have u := sumTo_upd (fun w => (handR w).count x) s.rl i (some (.send v)) K (hI.rl_lt hr).2
    beta_reduce at u
    have e := h x
    rw [hw] at t
    rw [hr] at u
    have e1 : (hand (some (WorkerPC.send v))).count x = [v].count x := rfl
    have e2 : (hand (some WorkerPC.sleep)).count x = 0 := rfl
    have e3 : (handR (some RelayPC.recv)).count x = 0 := rfl
    have e4 : (handR (some (RelayPC.send v))).count x = [v].count x := rfl
    rw [e1, e2] at t
    rw [e3, e4] at u
    dsimp only
    omega
  | eof hr hw hc =>
    intro x
    have u := sumTo_upd (fun w => (handR w).count x) s.rl i (some .wgDone) K (hI.rl_lt hr).2
    beta_reduce at u
    have e := h x
    rw [hr] at u
    have e3 : (handR (some RelayPC.recv)).count x = 0 := rfl
    have e4 : (handR (some RelayPC.wgDone)).count x = 0 := rfl
    rw [e3, e4] at u
    dsimp only
    omega
  | send v hr hc hl =>
    intro x
    have u := sumTo_upd (fun w => (handR w).count x) s.rl i (some .recv) K (hI.rl_lt hr).2
    beta_reduce at u
    have e := h x
    rw [hr] at u
    have e3 : (handR (some RelayPC.recv)).count x = 0 := rfl
    have e4 : (handR (some (RelayPC.send v))).count x = [v].count x := rfl
    rw [e3, e4] at u
    dsimp only
    rw [List.count_append]
    omega
  | done hr hc =>
    intro x
    have u := sumTo_upd (fun w => (handR w).count x) s.rl i (some .halted) K (hI.rl_lt hr).2
    beta_reduce at u
    have e := h x
    rw [hr] at u
    have e3 : (handR (some RelayPC.halted)).count x = 0 := rfl
    have e4 : (handR (some RelayPC.wgDone)).count x = 0 := rfl
    rw [e3, e4] at u
    dsimp only
    omega

theorem GenC.genC_mainStep {K : Nat} {s s' : State} (hI : Inv K s) (h : GenC s)
    (hs : MainStep K s s') : GenC s' := by
  cases hs with
  | spawnGen hpc =>
    have hg := hI.genS.mpr hpc
    have hs := h.gNone hg
    obtain ⟨i1, i2, i3⟩ := h.gIdle (by rw [hg]; rfl)
    constructor
    · intro _; exact ⟨i1, i2, i3⟩
    · intro n hn; simp [pending, Generator.init] at hn
    · intro hn; simp at hn
    · intro pc n hh
      simp only [Generator.init, Option.some.injEq, Gen.mk.injEq] at hh
      obtain ⟨rfl, rfl⟩ := hh
      dsimp only
      rw [hs]; decide
    · exact h.seq
  | spawnWorker a hpc ha | spawnRelay a hpc | recv v rest hpc hc
  | workersDone a hpc ha | wgAdd a hpc ha | relaysDone a hpc ha | spawnCloser hpc
  | recvClosed hpc hc hz | addCount v hpc | addSum v hpc | verify hpc =>
    exact h.genC_congr rfl rfl rfl rfl rfl

theorem GenC.genC_genStep {s s' : State} (h : GenC s) (hs : GenStep s s') : GenC s' := by
  cases hs with
  | sendPanic n hg hc | closePanic n hg hc => exact h.genC_congr rfl rfl rfl rfl rfl
  | ctxDone n hg hd | dflt n hg hd | close n hg hd =>
    obtain ⟨i1, i2, i3⟩ := h.gIdle (by rw [hg]; rfl)
    have hn := h.gN _ _ hg
    constructor
    · intro _; exact ⟨i1, i2, i3⟩
    · intro m hm; simp [pending] at hm
    · intro hm; simp at hm
    · intro pc m hh
      simp only [Option.some.injEq, Gen.mk.injEq] at hh
      obtain ⟨rfl, rfl⟩ := hh
      simpa using hn
    · exact h.seq
  | addSum n hg hc =>
    obtain ⟨pre, p1, p2, p3⟩ := h.gPend n (by rw [hg]; rfl)
    have hn := h.gN _ _ hg
    constructor
    · intro hp; rw [show s.gen = _ from hg] at hp; simp [pending] at hp
    · intro m hm
      rw [show s.gen = _ from hg] at hm
      simp only [pending, Option.some.injEq] at hm
      subst hm
      refine ⟨pre, p1, p2, ?_⟩
      show wrap64 (s.inputSum + n) = wrap64 (pre.sum + if true = true then n else 0)
      rw [p3, hc, wrap64_add_wrap64_left]
      simp
    · exact h.gNone
    · exact h.gN
    · exact h.seq
  | addCount n hg hc =>
    obtain ⟨pre, p1, p2, p3⟩ := h.gPend n (by rw [hg]; rfl)
    have hn := h.gN _ _ hg
    constructor
    · intro _
      refine ⟨rfl, ?_, ?_⟩
      · show wrap64 (s.inputCount + 1) = wrap64 s.sent.length
        rw [p2, p1, wrap64_add_wrap64_left]; simp
      · show s.inputSum = wrap64 s.sent.sum
        rw [p3, p1, hc]; simp
    · intro m hm; simp [pending] at hm
    · intro hm; simp at hm
    · intro pc m hh
      simp only [Option.some.injEq, Gen.mk.injEq] at hh
      obtain ⟨rfl, rfl⟩ := hh
      show wrap64 (n + 1) = wrap64 (s.sent.length + if GenPC.select = GenPC.call then 0 else 1)
      rw [hn, wrap64_add_wrap64_left]; simp
    · exact h.seq

theorem GenC.genC_workerStep {s s' : State} {i : Nat} (h : GenC s) (hs : WorkerStep s i s') :
    GenC s' := by
  cases hs with
  | sendPanic v hw hc | closePanic hw hc | eof hw hc | sleep hw | close hw hc =>
    exact h.genC_congr rfl rfl rfl rfl rfl
  | recv n hw hg =>
    obtain ⟨i1, i2, i3⟩ := h.gIdle (by rw [hg]; rfl)
    have hn := h.gN _ _ hg
    have hq := h.seq
    constructor
    · intro hp; simp [pending] at hp
    · intro m hm
      simp only [pending, Option.some.injEq] at hm
      subst hm
      refine ⟨s.sent, rfl, i2, ?_⟩
      show s.inputSum = wrap64 (s.sent.sum + if s.cb = true then n else 0)
      rw [i1, i3]; simp
    · intro hm; simp at hm
    · intro pc m hh
      simp only [Option.some.injEq, Gen.mk.injEq] at hh
      obtain ⟨rfl, rfl⟩ := hh
      show n = wrap64 (((s.sent ++ [n]).length : Nat) + if GenPC.call = GenPC.call then 0 else 1)
      rw [hn]; simp
    · show s.sent ++ [n] = seqW (s.sent ++ [n]).length
      rw [List.length_append, List.length_singleton, seqW_succ, ← hq, hn]
      simp

theorem GenC.genC_relayStep {K : Nat} {s s' : State} {i : Nat} (h : GenC s) (hs : RelayStep K s i s') :
    GenC s' := by
  cases hs <;> exact h.genC_congr rfl rfl rfl rfl rfl

theorem GenC.genC_closerStep {s s' : State} (h : GenC s) (hs : CloserStep s s') : GenC s' := by
  cases hs <;> exact h.genC_congr rfl rfl rfl rfl rfl

theorem MainC.mainC_mainStep {K : Nat} {s s' : State} (h : MainC s)
    (hs : MainStep K s s') : MainC s' := by
  cases hs with
  | spawnGen hpc | spawnWorker a hpc ha | spawnRelay a hpc
  | workersDone a hpc ha | wgAdd a hpc ha | relaysDone a hpc ha | spawnCloser hpc
  | recvClosed hpc hc hz =>
    have hi := h.mIdle (by intro v hv; rw [hpc] at hv; cases hv) (by intro v hv; rw [hpc] at hv; cases hv)
    constructor
    · intro v hv; cases hv
    · intro v hv; cases hv
    · intro _ _; exact hi
    · intro v hv; cases hv
  | recv v rest hpc hc =>
    have hi := h.mIdle (by intro v hv; rw [hpc] at hv; cases hv) (by intro v hv; rw [hpc] at hv; cases hv)
    constructor
    · intro w hw
      simp only [MainPC.addCount.injEq] at hw
      subst hw
      exact ⟨s.got, rfl, hi.1, hi.2⟩
    · intro v hv; cases hv
    · intro h1 _; exact absurd rfl (h1 v)
    · intro v hv; cases hv
  | addCount v hpc =>
    obtain ⟨pre, p1, p2, p3⟩ := h.mCount v hpc
    constructor
    · intro v hv; cases hv
    · intro w hw
      simp only [MainPC.addSum.injEq] at hw
      subst hw
      refine ⟨pre, p1, ?_, p3⟩
      show wrap64 (s.count + 1) = wrap64 s.got.length
      rw [p2, p1, wrap64_add_wrap64_left]; simp
    · intro _ h2; exact absurd rfl (h2 v)
    · intro v hv; cases hv
  | addSum v hpc =>
    obtain ⟨pre, p1, p2, p3⟩ := h.mSum v hpc
    constructor
    · intro v hv; cases hv
    · intro v hv; cases hv
    · intro _ _
      refine ⟨p2, ?_⟩
      show wrap64 (s.sum + v) = wrap64 s.got.sum
      rw [p3, p1, wrap64_add_wrap64_left]; simp
    · intro v hv; cases hv
  | verify hpc =>
    have hi := h.mIdle (by intro v hv; rw [hpc] at hv; cases hv) (by intro v hv; rw [hpc] at hv; cases hv)
    constructor
    · intro v hv; cases hv
    · intro v hv; cases hv
    · intro _ _; exact hi
    · intro r hr
      simp only [MainPC.exited.injEq] at hr
      exact hr.symm

theorem MainC.mainC_genStep {s s' : State} (h : MainC s) (hne : ∀ r, s.pc ≠ .exited r)
    (hs : GenStep s s') : MainC s' := by
  cases hs <;> exact h.mainC_congr rfl rfl rfl rfl (fun ⟨r, hr⟩ => absurd hr (hne r))

theorem MainC.mainC_workerStep {s s' : State} {i : Nat} (h : MainC s) (hs : WorkerStep s i s') :
    MainC s' := by
  cases hs <;> exact h.mainC_congr rfl rfl rfl rfl (fun _ => ⟨rfl, rfl⟩)

theorem MainC.mainC_relayStep {K : Nat} {s s' : State} {i : Nat} (h : MainC s)
    (hs : RelayStep K s i s') : MainC s' := by
  cases hs <;> exact h.mainC_congr rfl rfl rfl rfl (fun _ => ⟨rfl, rfl⟩)

theorem MainC.mainC_closerStep {s s' : State} (h : MainC s) (hs : CloserStep s s') : MainC s' := by
  cases hs <;> exact h.mainC_congr rfl rfl rfl rfl (fun _ => ⟨rfl, rfl⟩)

/-! ### Relays forward verbatim -/

theorem Logs.logs_init : Logs init := by
  intro i; rfl

theorem Logs.logs_congr {s s' : State} (h : Logs s) (h1 : s'.relIn = s.relIn)
    (h2 : s'.relOut = s.relOut) (h3 : s'.rl = s.rl) : Logs s' := by
  unfold Logs
  rw [h1, h2, h3]
  exact h

theorem Logs.logs_mainStep {K : Nat} {s s' : State} (hI : Inv K s) (h : Logs s)
    (hs : MainStep K s s') : Logs s' := by
  cases hs with
  | spawnRelay a hpc =>
    have hw := ((hI.idx a).rlS).mpr (by simp [hpc, MainPC.relays])
    intro j
    have hj := h j
    dsimp only [upd_apply]
    by_cases e : j = a
    · subst e
      rw [hw] at hj
      simpa [handR] using hj
    · simpa [e] using hj
  | spawnGen hpc | spawnWorker a hpc ha | recv v rest hpc hc
  | workersDone a hpc ha | wgAdd a hpc ha | relaysDone a hpc ha | spawnCloser hpc
  | recvClosed hpc hc hz | addCount v hpc | addSum v hpc | verify hpc =>
    exact h.logs_congr rfl rfl rfl

theorem Logs.logs_genStep {s s' : State} (h : Logs s) (hs : GenStep s s') : Logs s' := by
  cases hs <;> exact h.logs_congr rfl rfl rfl

theorem Logs.logs_workerStep {s s' : State} {i : Nat} (h : Logs s) (hs : WorkerStep s i s') :
    Logs s' := by
  cases hs <;> exact h.logs_congr rfl rfl rfl

theorem Logs.logs_closerStep {s s' : State} (h : Logs s) (hs : CloserStep s s') : Logs s' := by
  cases hs <;> exact h.logs_congr rfl rfl rfl

theorem Logs.logs_relayStep {K : Nat} {s s' : State} {i : Nat} (h : Logs s)
    (hs : RelayStep K s i s') : Logs s' := by
  cases hs with
  | sendPanic v hw hc | donePanic hw hc => exact h.logs_congr rfl rfl rfl
  | recv v hr hw =>
    intro j
    have hj := h j
    dsimp only [upd_apply]
    by_cases e : j = i
    · subst e
      rw [hr] at hj
      simp [handR] at hj ⊢
      rw [hj]
    · simpa [e] using hj
  | eof hr hw hc =>
    intro j
    have hj := h j
    dsimp only [upd_apply]
    by_cases e : j = i
    · subst e
      rw [hr] at hj
      simpa [handR] using hj
    · simpa [e] using hj
  | send v hr hc hl =>
    intro j
    have hj := h j
    dsimp only [upd_apply]
    by_cases e : j = i
    · subst e
      rw [hr] at hj
      simpa [handR] using hj
    · simpa [e] using hj
  | done hr hc =>
    intro j
    have hj := h j
    dsimp only [upd_apply]
    by_cases e : j = i
    · subst e
      rw [hr] at hj
      simpa [handR] using hj
    · simpa [e] using hj

/-! ### The measure decreases -/

theorem mu_mainStep {K : Nat} {s s' : State} (hI : Inv K s) (hs : MainStep K s s') :
    mu K s' < mu K s := by
  cases hs with
  | spawnGen hpc =>
    have hg := hI.genS.mpr hpc
    simp only [mu, hpc, hg, mainW, genW, Generator.init]
    omega
  | spawnWorker a hpc ha =>
    have hw := ((hI.idx a).wkS).mpr (by simp [hpc, MainPC.workers])
    have t := sumTo_upd workerW s.wk a (some .recv) K ha
    rw [hw] at t
    have e1 : workerW none = 2 := rfl
    have e2 : workerW (some WorkerPC.recv) = 2 := rfl
    rw [e1, e2] at t
    simp only [mu, hpc, mainW]
    omega
  | workersDone a hpc ha =>
    simp only [mu, hpc, mainW]
    omega
  | wgAdd a hpc ha =>
    simp only [mu, hpc, mainW]
    omega
  | relaysDone a hpc ha =>
    simp only [mu, hpc, mainW]
    omega
  | spawnRelay a hpc =>
    have ha := hI.bR a hpc
    have hw := ((hI.idx a).rlS).mpr (by simp [hpc, MainPC.relays])
    have t := sumTo_upd relayW s.rl a (some .recv) K ha
    rw [hw] at t
    have e1 : relayW none = 2 := rfl
    have e2 : relayW (some RelayPC.recv) = 2 := rfl
    rw [e1, e2] at t
    simp only [mu, hpc, mainW]
    omega
  | spawnCloser hpc =>
    have hc := hI.clS.mpr (by simp [hpc, MainPC.closer])
    simp only [mu, hpc, hc, mainW, closerW]
    omega
  | recv v rest hpc hc =>
    simp only [mu, hpc, hc, mainW, List.length_cons]
    omega
  | recvClosed hpc hc hz =>
    simp only [mu, hpc, mainW]
    omega
  | addCount v hpc =>
    simp only [mu, hpc, mainW]
    omega
  | addSum v hpc =>
    simp only [mu, hpc, mainW]
    omega
  | verify hpc =>
    simp only [mu, hpc, mainW]
    omega

theorem mu_genStep {K : Nat} {s s' : State} (hI' : Inv K s') (hd : s.deadline = true)
    (hs : GenStep s s') : mu K s' < mu K s := by
  have hp := hI'.noPanic
  cases hs with
  | sendPanic n hg hc | closePanic n hg hc => simp at hp
  | dflt n hg hc => rw [hd] at hc; simp at hc
  | ctxDone n hg hc =>
    simp only [mu, hg, genW]
    omega
  | addSum n hg hc =>
    simp only [mu, hg, hc, genW]
    simp
  | addCount n hg hc =>
    simp only [mu, hg, hc, genW]
    simp
  | close n hg hc =>
    simp only [mu, hg, genW]
    omega

theorem mu_workerStep {K : Nat} {s s' : State} {i : Nat} (hI : Inv K s) (hI' : Inv K s')
    (hs : WorkerStep s i s') : mu K s' < mu K s := by
  have hp := hI'.noPanic
  cases hs with
  | sendPanic v hw hc | closePanic hw hc => simp at hp
  | recv n hw hg =>
    have t := sumTo_upd workerW s.wk i (some (.send n)) K (hI.wk_lt hw)
    rw [hw] at t
    have e1 : workerW (some (WorkerPC.send n)) = 8 := rfl
    have e2 : workerW (some WorkerPC.recv) = 2 := rfl
    rw [e1, e2] at t
    simp only [mu, hg, genW]
    split <;> omega
  | eof hw hc =>
    have t := sumTo_upd workerW s.wk i (some .close) K (hI.wk_lt hw)
    rw [hw] at t
    have e1 : workerW (some WorkerPC.close) = 1 := rfl
    have e2 : workerW (some WorkerPC.recv) = 2 := rfl
    rw [e1, e2] at t
    simp only [mu]
    omega
  | sleep hw =>
    have t := sumTo_upd workerW s.wk i (some .recv) K (hI.wk_lt hw)
    rw [hw] at t
    have e1 : workerW (some WorkerPC.sleep) = 3 := rfl
    have e2 : workerW (some WorkerPC.recv) = 2 := rfl
    rw [e1, e2] at t
    simp only [mu]
    omega
  | close hw hc =>
    have t := sumTo_upd workerW s.wk i (some .halted) K (hI.wk_lt hw)
    rw [hw] at t
    have e1 : workerW (some WorkerPC.close) = 1 := rfl
    have e2 : workerW (some WorkerPC.halted) = 0 := rfl
    rw [e1, e2] at t
    simp only [mu]
    omega

theorem mu_relayStep {K : Nat} {s s' : State} {i : Nat} (hI : Inv K s) (hI' : Inv K s')
    (hs : RelayStep K s i s') : mu K s' < mu K s := by
  have hp := hI'.noPanic
  cases hs with
  | sendPanic v hw hc | donePanic hw hc => simp at hp
  | recv v hr hw =>
    have t := sumTo_upd workerW s.wk i (some .sleep) K (hI.wk_lt hw)
    have u := sumTo_upd relayW s.rl i (some (.send v)) K (hI.rl_lt hr).2
    rw [hw] at t
    rw [hr] at u
    have e1 : workerW (some (WorkerPC.send v)) = 8 := rfl
    have e2 : workerW (some WorkerPC.sleep) = 3 := rfl
    have e3 : relayW (some (RelayPC.send v)) = 6 := rfl
    have e4 : relayW (some RelayPC.recv) = 2 := rfl
    rw [e1, e2] at t
    rw [e3, e4] at u
    simp only [mu]
    omega
  | eof hr hw hc =>
    have u := sumTo_upd relayW s.rl i (some .wgDone) K (hI.rl_lt hr).2
    rw [hr] at u
    have e3 : relayW (some RelayPC.wgDone) = 1 := rfl
    have e4 : relayW (some RelayPC.recv) = 2 := rfl
    rw [e3, e4] at u
    simp only [mu]
    omega
  | send v hr hc hl =>
    have u := sumTo_upd relayW s.rl i (some .recv) K (hI.rl_lt hr).2
    rw [hr] at u
    have e3 : relayW (some (RelayPC.send v)) = 6 := rfl
    have e4 : relayW (some RelayPC.recv) = 2 := rfl
    rw [e3, e4] at u
    simp only [mu, List.length_append, List.length_singleton]
    omega
  | done hr hc =>
    have u := sumTo_upd relayW s.rl i (some .halted) K (hI.rl_lt hr).2
    rw [hr] at u
    have e3 : relayW (some RelayPC.wgDone) = 1 := rfl
    have e4 : relayW (some RelayPC.halted) = 0 := rfl
    rw [e3, e4] at u
    simp only [mu]
    omega

theorem mu_closerStep {K : Nat} {s s' : State} (hI' : Inv K s')
    (hs : CloserStep s s') : mu K s' < mu K s := by
  have hp := hI'.noPanic
  cases hs with
  | closePanic hc hz => simp at hp
  | wait hc hw =>
    simp only [mu, hc, closerW]
    omega
  | close hc hz =>
    simp only [mu, hc, closerW]
    omega

/-! ### Reachable states -/

theorem Good.atInit (K : Nat) : Good K init :=
  ⟨Inv.inv_init K, Flow.flow_init K, GenC.genC_init, MainC.mainC_init, Logs.logs_init⟩

theorem step_live {K : Nat} {s s' : State} {p : Pick} (hs : step K s p = some s') :
    s.panicked = false ∧ ∀ r, s.pc ≠ .exited r := by
  unfold step at hs
  cases hp : s.panicked
  · refine ⟨rfl, ?_⟩
    intro r hr
    simp [hp, hr, MainPC.isExited] at hs
  · simp [hp] at hs

theorem step_cases {K : Nat} {s s' : State} {p : Pick} (hs : step K s p = some s') :
    (p = .deadline ∧ stepDeadline s = some s') ∨
    (p = .main ∧ stepMain K s = some s' ∧ MainStep K s s') ∨
    (p = .gen ∧ GenStep s s') ∨ (∃ i, p = .worker i ∧ WorkerStep s i s') ∨
    (∃ i, p = .relay i ∧ RelayStep K s i s') ∨ (p = .closer ∧ CloserStep s s') := by
  unfold step at hs
  split at hs
  · simp at hs
  · cases p with
    | deadline => exact Or.inl ⟨rfl, hs⟩
    | main => exact Or.inr (Or.inl ⟨rfl, hs, stepMain_sound hs⟩)
    | gen => exact Or.inr (Or.inr (Or.inl ⟨rfl, stepGen_sound hs⟩))
    | worker i => exact Or.inr (Or.inr (Or.inr (Or.inl ⟨i, rfl, stepWorker_sound hs⟩)))
    | relay i => exact Or.inr (Or.inr (Or.inr (Or.inr (Or.inl ⟨i, rfl, stepRelay_sound hs⟩))))
    | closer => exact Or.inr (Or.inr (Or.inr (Or.inr (Or.inr ⟨rfl, stepCloser_sound hs⟩))))

/-- Every step preserves all the invariants. -/
theorem Good.good_next {K : Nat} {s s' : State} {p : Pick} (h : Good K s)
    (hs : step K s p = some s') : Good K s' := by
  obtain ⟨_, hne⟩ := step_live hs
  obtain ⟨hI, hF, hG, hM, hL⟩ := h
  rcases step_cases hs with ⟨_, hd⟩ | ⟨_, hmf, hm⟩ | ⟨_, hg⟩ | ⟨i, _, hw⟩ | ⟨i, _, hr⟩ | ⟨_, hc⟩
  · have e : s' = { s with deadline := true } := by
      unfold stepDeadline at hd
      split at hd
      · simp at hd
      · simpa using hd.symm
    refine ⟨hI.deadline hd, ?_, ?_, ?_, ?_⟩
    · subst e; exact hF.flow_congr rfl rfl rfl rfl rfl
    · subst e; exact hG.genC_congr rfl rfl rfl rfl rfl
    · subst e; exact hM.mainC_congr rfl rfl rfl rfl (fun _ => ⟨rfl, rfl⟩)
    · subst e; exact hL.logs_congr rfl rfl rfl
  · exact ⟨hI.main hmf, hF.flow_mainStep hI hm, hG.genC_mainStep hI hm, hM.mainC_mainStep hm, hL.logs_mainStep hI hm⟩
  · exact ⟨hI.inv_genStep hg, hF.flow_genStep hg, hG.genC_genStep hg, hM.mainC_genStep hne hg, hL.logs_genStep hg⟩
  · exact ⟨hI.inv_workerStep hw, hF.flow_workerStep hI hw, hG.genC_workerStep hw, hM.mainC_workerStep hw,
      hL.logs_workerStep hw⟩
  · exact ⟨hI.inv_relayStep hr, hF.flow_relayStep hI hr, hG.genC_relayStep hr, hM.mainC_relayStep hr,
      hL.logs_relayStep hr⟩
  · exact ⟨hI.inv_closerStep hc, hF.flow_closerStep hc, hG.genC_closerStep hc, hM.mainC_closerStep hc,
      hL.logs_closerStep hc⟩

theorem Good.good_after {K : Nat} : ∀ (ps : List Pick) {s s' : State}, Good K s →
    run K s ps = some s' → Good K s' := by
  intro ps
  induction ps with
  | nil => intro s s' h hr; simp only [Pipeline.run, Option.some.injEq] at hr; subst hr; exact h
  | cons p ps ih =>
    intro s s' h hr
    simp only [Pipeline.run] at hr
    cases hs : Pipeline.step K s p with
    | none => rw [hs] at hr; simp at hr
    | some t => rw [hs] at hr; exact ih (h.good_next hs) hr

/-- The invariants hold in every reachable state. -/
theorem Reachable.good {K : Nat} {s : State} (h : Reachable K s) : Good K s := by
  obtain ⟨ps, hps⟩ := h
  exact Good.good_after ps (Good.atInit K) hps

theorem run_append {K : Nat} : ∀ (ps qs : List Pick) (s : State),
    run K s (ps ++ qs) = (run K s ps).bind (fun t => run K t qs) := by
  intro ps
  induction ps with
  | nil => intro qs s; rfl
  | cons p ps ih =>
    intro qs s
    simp only [List.cons_append, Pipeline.run]
    cases Pipeline.step K s p with
    | none => rfl
    | some t => exact ih qs t

theorem Reachable.reachable_after {K : Nat} {s s' : State} {ps : List Pick} (h : Reachable K s)
    (hr : run K s ps = some s') : Reachable K s' := by
  obtain ⟨qs, hq⟩ := h
  exact ⟨qs ++ ps, by rw [run_append, hq]; exact hr⟩

/-! ### Deadlock freedom -/

theorem step_eq {K : Nat} {s : State} (hp : s.panicked = false) (he : s.pc.isExited = false)
    (p : Pick) : step K s p = match p with
      | .deadline => stepDeadline s
      | .main => stepMain K s
      | .gen => stepGen s
      | .worker i => stepWorker s i
      | .relay i => stepRelay K s i
      | .closer => stepCloser s := by
  cases p <;> simp [step, hp, he]

/-- Deadlock freedom: while `main` has not ended some goroutine can move. -/
theorem Inv.progress {K : Nat} {s : State} (h : Inv K s) (he : s.pc.isExited = false) :
    ∃ p, p ≠ Pick.deadline ∧ (step K s p).isSome = true := by
  have hp := h.noPanic
  have hmain : (stepMain K s).isSome = true → ∃ p, p ≠ Pick.deadline ∧ (step K s p).isSome = true :=
    fun hm => ⟨.main, by simp, by rw [step_eq hp he]; exact hm⟩
  cases hpc : s.pc with
  | spawnGen => exact hmain (by simp [stepMain, hpc])
  | spawnWorker a => exact hmain (by simp only [stepMain, hpc]; split <;> rfl)
  | wgAdd a => exact hmain (by simp only [stepMain, hpc]; split <;> rfl)
  | spawnRelay a => exact hmain (by simp [stepMain, hpc])
  | spawnCloser => exact hmain (by simp [stepMain, hpc])
  | addCount v => exact hmain (by simp [stepMain, hpc])
  | addSum v => exact hmain (by simp [stepMain, hpc])
  | verify => exact hmain (by simp [stepMain, hpc])
  | exited r => simp [hpc, MainPC.isExited] at he
  | recv =>
    cases hout : s.chOut with
    | cons v rest => exact hmain (by simp [stepMain, hpc, hout])
    | nil =>
      by_cases hz : 0 < s.chOutCloses
      · exact hmain (by simp [stepMain, hpc, hout, hz])
      · -- the closing goroutine has not closed `chOut` yet
        have hadds : s.pc.adds K = K := by simp [hpc, MainPC.adds]
        have hcl : s.cl ≠ none := by
          intro hc; have := h.clS.mp hc; simp [hpc, MainPC.closer] at this
        cases hc : s.cl with
        | none => exact absurd hc hcl
        | some c =>
          cases c with
          | halted => rw [h.closes, hc] at hz; simp at hz
          | close =>
            exact ⟨.closer, by simp, by
              rw [step_eq hp he]; simp [stepCloser, hc, hz]⟩
          | wait =>
            by_cases hw : s.wg = 0
            · exact ⟨.closer, by simp, by rw [step_eq hp he]; simp [stepCloser, hc, hw]⟩
            · -- some relay has not called `wg.Done()`
              have hpos : 0 < sumTo (fun i => owes (s.rl i)) K := by
                have := h.wgEq; rw [hadds] at this; omega
              obtain ⟨i, hi, hio⟩ := sumTo_pos _ K hpos
              have hrl : s.rl i ≠ none := by
                intro hr; have := ((h.idx i).rlS).mp hr; simp [hpc, MainPC.relays] at this; omega
              have hwk : s.wk i ≠ none := by
                intro hr; have := ((h.idx i).wkS).mp hr; simp [hpc, MainPC.workers] at this; omega
              cases hr : s.rl i with
              | none => exact absurd hr hrl
              | some r =>
                cases r with
                | halted => simp [hr, owes] at hio
                | wgDone =>
                  exact ⟨.relay i, by simp, by
                    rw [step_eq hp he]; simp only [stepRelay, hr]; split <;> rfl⟩
                | send v =>
                  exact ⟨.relay i, by simp, by
                    rw [step_eq hp he]
                    have : s.chOut.length < K := by rw [hout]; simpa using (by omega : 0 < K)
                    simp [stepRelay, hr, hz, this]⟩
                | recv =>
                  cases hw' : s.wk i with
                  | none => exact absurd hw' hwk
                  | some w =>
                    cases w with
                    | send v =>
                      exact ⟨.relay i, by simp, by
                        rw [step_eq hp he]; simp [stepRelay, hr, outOffer_eq, hw']⟩
                    | halted =>
                      have := ((h.idx i).outs).mpr hw'
                      exact ⟨.relay i, by simp, by
                        rw [step_eq hp he]; simp [stepRelay, hr, outOffer_eq, hw', this]⟩
                    | sleep =>
                      exact ⟨.worker i, by simp, by
                        rw [step_eq hp he]; simp [stepWorker, hw', Worker.step]⟩
                    | close =>
                      have : s.outsClosed i = false := by
                        cases ho : s.outsClosed i
                        · rfl
                        · have := ((h.idx i).outs).mp ho; rw [hw'] at this; simp at this
                      exact ⟨.worker i, by simp, by
                        rw [step_eq hp he]; simp [stepWorker, hw', Worker.step, this]⟩
                    | recv =>
                      have hgen : s.gen ≠ none := by
                        intro hg; have := h.genS.mp hg; rw [hpc] at this; cases this
                      cases hg : s.gen with
                      | none => exact absurd hg hgen
                      | some g =>
                        obtain ⟨gpc, n⟩ := g
                        cases gpc with
                        | send =>
                          exact ⟨.worker i, by simp, by
                            rw [step_eq hp he]
                            simp [stepWorker, hw', chInOffer_eq, hg, Worker.step]⟩
                        | halted =>
                          have := h.chIn.mpr ⟨n, hg⟩
                          exact ⟨.worker i, by simp, by
                            rw [step_eq hp he]
                            simp [stepWorker, hw', chInOffer_eq, hg, Worker.step, this]⟩
                        | select =>
                          exact ⟨.gen, by simp, by
                            rw [step_eq hp he]
                            simp only [stepGen, hg, Generator.step]
                            cases s.deadline <;> rfl⟩
                        | call =>
                          exact ⟨.gen, by simp, by
                            rw [step_eq hp he]
                            simp only [stepGen, hg, Generator.step]
                            cases s.cb <;> rfl⟩
                        | close =>
                          have : s.chInClosed = false := h.gen_open hg (by decide)
                          exact ⟨.gen, by simp, by
                            rw [step_eq hp he]
                            simp [stepGen, hg, Generator.step, this]⟩

/-! ### The end of the run -/

/-- Once the loop over `chOut` has ended, every goroutine has returned. -/
theorem Inv.drained {K : Nat} {s : State} (h : Inv K s) (hK : 1 ≤ K)
    (hpc : s.pc = .verify ∨ ∃ r, s.pc = .exited r) :
    s.chOut = [] ∧ s.cl = some .halted ∧ s.chOutCloses = 1 ∧
    (∀ i, i < K → s.rl i = some .halted ∧ s.outsClosed i = true ∧ s.wk i = some .halted) ∧
    s.chInClosed = true ∧ ∃ n, s.gen = some ⟨.halted, n⟩ := by
  obtain ⟨h1, h2⟩ := h.fin hpc
  have hall : ∀ i, i < K → s.rl i = some .halted ∧ s.outsClosed i = true ∧ s.wk i = some .halted := by
    intro i hi
    have r := (h.idx i).clWg (Or.inr h2) hi
    have o := (h.idx i).rlOut (Or.inr r)
    exact ⟨r, o, ((h.idx i).outs).mp o⟩
  have hin : s.chInClosed = true := (h.idx 0).wkIn (Or.inr (hall 0 (by omega)).2.2)
  refine ⟨h1, h2, ?_, hall, hin, h.chIn.mp hin⟩
  rw [h.closes, if_pos h2]

/-- Conservation at the end of the loop over `chOut`. -/
theorem Good.conserved {K : Nat} {s : State} (h : Good K s) (hK : 1 ≤ K)
    (hpc : s.pc = .verify ∨ ∃ r, s.pc = .exited r) :
    s.got.Perm s.sent ∧ s.count = s.inputCount ∧ s.sum = s.inputSum := by
  obtain ⟨d1, d2, d3, d4, d5, n, d6⟩ := h.inv.drained hK hpc
  have hperm : s.got.Perm s.sent := by
    rw [List.perm_iff_count]
    intro a
    have := h.flow a
    rw [sumTo_zero _ K (fun i hi => by simp [(d4 i hi).2.2, hand]),
      sumTo_zero _ K (fun i hi => by simp [(d4 i hi).1, handR]), d1] at this
    simpa using this.symm
  obtain ⟨_, g2, g3⟩ := h.genC.gIdle (by rw [d6]; rfl)
  obtain ⟨m1, m2⟩ := h.mainC.mIdle
    (by intro v hv; rcases hpc with e | ⟨r, e⟩ <;> rw [e] at hv <;> cases hv)
    (by intro v hv; rcases hpc with e | ⟨r, e⟩ <;> rw [e] at hv <;> cases hv)
  exact ⟨hperm, by rw [m1, g2, hperm.length_eq], by rw [m2, g3, hperm.sum_eq]⟩

/-- When `main` has ended the pipeline is in its final state. -/
theorem Good.final {K : Nat} {s : State} (h : Good K s) (hK : 1 ≤ K)
    (he : s.pc.isExited = true) : Final K s := by
  have hex : ∃ r, s.pc = .exited r := by
    cases hpc : s.pc <;> simp [hpc, MainPC.isExited] at he
    exact ⟨_, rfl⟩
  obtain ⟨d1, d2, d3, d4, d5, d6⟩ := h.inv.drained hK (Or.inr hex)
  obtain ⟨c1, c2, c3⟩ := h.conserved hK (Or.inr hex)
  obtain ⟨r, hr⟩ := hex
  have := h.mainC.exitR r hr
  rw [← c2, ← c3] at this
  have hok : r = .ok := by rw [this]; simp [check]
  subst hok
  exact ⟨hr, h.inv.noPanic, d5, fun i hi => (d4 i hi).2.1, d3, d1, d6,
    fun i hi => ⟨(d4 i hi).2.2, (d4 i hi).1⟩, d2⟩

theorem step_deadline {K : Nat} {s s' : State} {p : Pick} (hd : s.deadline = true)
    (hs : step K s p = some s') : p ≠ .deadline ∧ s'.deadline = true := by
  rcases step_cases hs with ⟨_, h⟩ | ⟨e, _, h⟩ | ⟨e, h⟩ | ⟨i, e, h⟩ | ⟨i, e, h⟩ | ⟨e, h⟩
  · simp [stepDeadline, hd] at h
  · subst e; exact ⟨by simp, by cases h <;> exact hd⟩
  · subst e; exact ⟨by simp, by cases h <;> exact hd⟩
  · subst e; exact ⟨by simp, by cases h <;> exact hd⟩
  · subst e; exact ⟨by simp, by cases h <;> exact hd⟩
  · subst e; exact ⟨by simp, by cases h <;> exact hd⟩

/-- Once the deadline has fired every step decreases the measure. -/
theorem Good.mu_step {K : Nat} {s s' : State} {p : Pick} (h : Good K s) (hd : s.deadline = true)
    (hs : step K s p = some s') : mu K s' < mu K s := by
  have hI' := (h.good_next hs).inv
  rcases step_cases hs with ⟨_, h'⟩ | ⟨e, _, h'⟩ | ⟨e, h'⟩ | ⟨i, e, h'⟩ | ⟨i, e, h'⟩ | ⟨e, h'⟩
  · simp [stepDeadline, hd] at h'
  · exact mu_mainStep h.inv h'
  · exact mu_genStep hI' hd h'
  · exact mu_workerStep h.inv hI' h'
  · exact mu_relayStep h.inv hI' h'
  · exact mu_closerStep hI' h'

/-- Once the deadline has fired a continuation has at most `mu` steps. -/
theorem Good.run_bound {K : Nat} : ∀ (ps : List Pick) {s s' : State}, Good K s →
    s.deadline = true → run K s ps = some s' → ps.length + mu K s' ≤ mu K s := by
  intro ps
  induction ps with
  | nil =>
    intro s s' _ _ hr
    simp only [Pipeline.run, Option.some.injEq] at hr
    subst hr; simp
  | cons p ps ih =>
    intro s s' h hd hr
    simp only [Pipeline.run] at hr
    cases hs : Pipeline.step K s p with
    | none => rw [hs] at hr; simp at hr
    | some t =>
      rw [hs] at hr
      have := ih (h.good_next hs) (step_deadline hd hs).2 hr
      have := h.mu_step hd hs
      simp only [List.length_cons]
      omega

/-- Once the deadline has fired some continuation ends `main`. -/
theorem Good.exists_exit {K : Nat} : ∀ (n : Nat) {s : State}, mu K s ≤ n → Good K s →
    s.deadline = true → ∃ ps s', run K s ps = some s' ∧ s'.pc.isExited = true := by
  intro n
  induction n with
  | zero =>
    intro s hn h hd
    cases he : s.pc.isExited
    · obtain ⟨p, _, hp⟩ := h.inv.progress he
      obtain ⟨t, ht⟩ := Option.isSome_iff_exists.mp hp
      have := h.mu_step hd ht
      omega
    · exact ⟨[], s, rfl, he⟩
  | succ n ih =>
    intro s hn h hd
    cases he : s.pc.isExited
    · obtain ⟨p, _, hp⟩ := h.inv.progress he
      obtain ⟨t, ht⟩ := Option.isSome_iff_exists.mp hp
      have hlt := h.mu_step hd ht
      obtain ⟨ps, s', hr, hx⟩ := ih (by omega) (h.good_next ht) (step_deadline hd ht).2
      exact ⟨p :: ps, s', by simp only [Pipeline.run, ht]; exact hr, hx⟩
    · exact ⟨[], s, rfl, he⟩

/-! ### The closing goroutine -/

/-- No step undoes a close of `chOut`. -/
theorem step_closes_mono {K : Nat} {s s' : State} {p : Pick} (hs : step K s p = some s') :
    s.chOutCloses ≤ s'.chOutCloses := by
  rcases step_cases hs with ⟨_, h⟩ | ⟨_, _, h⟩ | ⟨_, h⟩ | ⟨i, _, h⟩ | ⟨i, _, h⟩ | ⟨_, h⟩
  · unfold stepDeadline at h
    split at h
    · simp at h
    · simp only [Option.some.injEq] at h; subst h; exact Nat.le_refl _
  · cases h <;> exact Nat.le_refl _
  · cases h <;> exact Nat.le_refl _
  · cases h <;> exact Nat.le_refl _
  · cases h <;> exact Nat.le_refl _
  · cases h with
    | wait _ _ => exact Nat.le_refl _
    | closePanic _ _ => exact Nat.le_refl _
    | close _ _ => exact Nat.le_succ _

/-- No continuation undoes a close of `chOut`. -/
theorem run_closes_mono {K : Nat} : ∀ (ps : List Pick) {s s' : State},
    run K s ps = some s' → s.chOutCloses ≤ s'.chOutCloses := by
  intro ps
  induction ps with
  | nil => intro s s' hr; simp only [run, Option.some.injEq] at hr; subst hr; exact Nat.le_refl _
  | cons p ps ih =>
    intro s s' hr
    simp only [run] at hr
    cases hs : step K s p with
    | none => rw [hs] at hr; simp at hr
    | some t =>
      rw [hs] at hr
      exact Nat.le_trans (step_closes_mono hs) (ih hr)

/-- While the closing goroutine has not returned `main` has not ended. -/
theorem Inv.closer_live {K : Nat} {s : State} (h : Inv K s) (hc : s.cl ≠ some .halted) :
    s.pc.isExited = false := by
  cases hpc : s.pc with
  | exited r => exact absurd (h.fin (Or.inr ⟨r, hpc⟩)).2 hc
  | _ => rfl

/-- The call `wg.Wait()` of the closing goroutine returns once every relay has returned. -/
theorem Inv.closer_wait {K : Nat} {s : State} (h : Inv K s) (hc : s.cl = some .wait)
    (hall : ∀ i, i < K → s.rl i = some .halted) :
    step K s .closer = some { s with cl := some .close } := by
  have he := h.closer_live (by rw [hc]; simp)
  have hw : s.wg = 0 := by
    rw [h.wgEq, h.adds_eq (by rw [hc]; simp)]
    exact sumTo_zero _ K (fun i hi => by rw [hall i hi]; rfl)
  rw [step_eq h.noPanic he]
  simp [stepCloser, hc, hw]

/-- The call `wg.Wait()` of the closing goroutine blocks while a relay has not returned. -/
theorem Inv.closer_blocked {K : Nat} {s : State} (h : Inv K s) (hc : s.cl = some .wait)
    {i : Nat} (hi : i < K) (hne : s.rl i ≠ some .halted) : step K s .closer = none := by
  have he := h.closer_live (by rw [hc]; simp)
  have hw : s.wg ≠ 0 := by
    intro hz
    rw [h.wgEq, h.adds_eq (by rw [hc]; simp)] at hz
    exact hne (owes_eq_zero (sumTo_eq_zero _ K hz i hi))
  rw [step_eq h.noPanic he]
  simp [stepCloser, hc, hw]

/-- After `wg.Wait()` the closing goroutine closes `chOut`, which was open. -/
theorem Inv.closer_close {K : Nat} {s : State} (h : Inv K s) (hc : s.cl = some .close) :
    s.chOutCloses = 0 ∧
    step K s .closer = some { s with chOutCloses := 1, cl := some .halted } := by
  have he := h.closer_live (by rw [hc]; simp)
  have hz : s.chOutCloses = 0 := by rw [h.closes, hc]; simp
  refine ⟨hz, ?_⟩
  rw [step_eq h.noPanic he]
  simp [stepCloser, hc, hz]

/-- A state in which no goroutine can move is one in which `main` has ended, and there
`chOut` has been closed once. -/
theorem Inv.stuck_closed {K : Nat} {s : State} (h : Inv K s) (hst : ∀ p, step K s p = none) :
    s.pc.isExited = true ∧ s.chOutCloses = 1 := by
  cases he : s.pc.isExited
  · obtain ⟨p, _, hp⟩ := h.progress he
    rw [hst p] at hp
    simp at hp
  · have hex : ∃ r, s.pc = .exited r := by
      cases hpc : s.pc <;> simp [hpc, MainPC.isExited] at he
      exact ⟨_, rfl⟩
    exact ⟨rfl, by rw [h.closes, if_pos (h.fin (Or.inr hex)).2]⟩

/-- Once `main` has ended nothing moves. -/
theorem step_exited {K : Nat} {s : State} (he : s.pc.isExited = true) (p : Pick) :
    step K s p = none := by
  simp [step, he]

/-! ### Runs in which nothing is sent -/

theorem Quiet.quiet_congr {s s' : State} (h : Quiet s) (h1 : s'.sent = s.sent)
    (h2 : s'.relIn = s.relIn) (h3 : s'.relOut = s.relOut) : Quiet s' := by
  unfold Quiet
  rw [h1, h2, h3]
  exact h

theorem Flow.wk_hand {K : Nat} {s : State} (hI : Inv K s) (h : Flow K s) {i : Nat} {v : Int}
    (hw : s.wk i = some (.send v)) : s.sent ≠ [] := by
  intro he
  have := h v
  have g := sumTo_ge (fun i => (hand (s.wk i)).count v) K i (hI.wk_lt hw)
  beta_reduce at g
  rw [hw] at g
  have e : (hand (some (WorkerPC.send v))).count v = 1 := by simp [hand]
  rw [e] at g
  rw [he, List.count_nil] at this
  omega

theorem Flow.rl_hand {K : Nat} {s : State} (hI : Inv K s) (h : Flow K s) {i : Nat} {v : Int}
    (hr : s.rl i = some (.send v)) : s.sent ≠ [] := by
  intro he
  have := h v
  have g := sumTo_ge (fun i => (handR (s.rl i)).count v) K i (hI.rl_lt hr).2
  beta_reduce at g
  rw [hr] at g
  have e : (handR (some (RelayPC.send v))).count v = 1 := by simp [handR]
  rw [e] at g
  rw [he, List.count_nil] at this
  omega

theorem Quiet.quiet_next {K : Nat} {s s' : State} {p : Pick} (hG : Good K s) (h : Quiet s)
    (hs : step K s p = some s') : Quiet s' := by
  rcases step_cases hs with ⟨_, h'⟩ | ⟨e, _, h'⟩ | ⟨e, h'⟩ | ⟨i, e, h'⟩ | ⟨i, e, h'⟩ | ⟨e, h'⟩
  · unfold stepDeadline at h'
    split at h'
    · simp at h'
    · simp only [Option.some.injEq] at h'; subst h'; exact h.quiet_congr rfl rfl rfl
  · cases h' <;> exact h.quiet_congr rfl rfl rfl
  · cases h' <;> exact h.quiet_congr rfl rfl rfl
  · cases h' with
    | recv n hw hg => intro he; simp at he
    | sendPanic v hw hc | closePanic hw hc | eof hw hc | sleep hw | close hw hc =>
      exact h.quiet_congr rfl rfl rfl
  · cases h' with
    | recv v hr hw => intro he; exact absurd he (Flow.wk_hand (s := s) hG.inv hG.flow hw)
    | send v hr hc hl => intro he; exact absurd he (Flow.rl_hand (s := s) hG.inv hG.flow hr)
    | sendPanic v hw hc | donePanic hw hc | eof hr hw hc | done hr hc =>
      exact h.quiet_congr rfl rfl rfl
  · cases h' <;> exact h.quiet_congr rfl rfl rfl

theorem Quiet.quiet_after {K : Nat} : ∀ (ps : List Pick) {s s' : State}, Good K s → Quiet s →
    run K s ps = some s' → Quiet s' := by
  intro ps
  induction ps with
  | nil => intro s s' _ h hr; simp only [Pipeline.run, Option.some.injEq] at hr; subst hr; exact h
  | cons p ps ih =>
    intro s s' hG h hr
    simp only [Pipeline.run] at hr
    cases hs : Pipeline.step K s p with
    | none => rw [hs] at hr; simp at hr
    | some t => rw [hs] at hr; exact ih (hG.good_next hs) (h.quiet_next hG hs) hr

theorem Reachable.quiet {K : Nat} {s : State} (h : Reachable K s) : Quiet s := by
  obtain ⟨ps, hps⟩ := h
  exact Quiet.quiet_after ps (Good.atInit K) (fun _ _ => ⟨rfl, rfl⟩) hps

theorem Zero.zero_next {K : Nat} {s s' : State} {p : Pick} (h : Zero s)
    (hs : step K s p = some s') : Zero s' := by
  obtain ⟨z1, z2, z3⟩ := h
  rcases step_cases hs with ⟨_, h'⟩ | ⟨e, _, h'⟩ | ⟨e, h'⟩ | ⟨i, e, h'⟩ | ⟨i, e, h'⟩ | ⟨e, h'⟩
  · simp [stepDeadline, z1] at h'
  · cases h' with
    | spawnGen hpc =>
      refine ⟨z1, z2, ?_⟩
      intro g hg
      simp only [Option.some.injEq] at hg
      subst hg
      exact Or.inl rfl
    | spawnWorker a hpc ha | spawnRelay a hpc | recv v rest hpc hc
    | workersDone a hpc ha | wgAdd a hpc ha | relaysDone a hpc ha | spawnCloser hpc
    | recvClosed hpc hc hz | addCount v hpc | addSum v hpc | verify hpc =>
      exact ⟨z1, z2, z3⟩
  · cases h' with
    | dflt n hg hd => rw [z1] at hd; simp at hd
    | addCount n hg hc | addSum n hg hc =>
      have := z3 _ hg
      simp at this
    | sendPanic n hg hc | closePanic n hg hc => exact ⟨z1, z2, z3⟩
    | ctxDone n hg hd | close n hg hd =>
      refine ⟨z1, z2, ?_⟩
      intro g hg'
      simp only [Option.some.injEq] at hg'
      subst hg'
      simp
  · cases h' with
    | recv n hw hg => have := z3 _ hg; simp at this
    | sendPanic v hw hc | closePanic hw hc | eof hw hc | sleep hw | close hw hc =>
      exact ⟨z1, z2, z3⟩
  · cases h' <;> exact ⟨z1, z2, z3⟩
  · cases h' <;> exact ⟨z1, z2, z3⟩

theorem Zero.zero_after {K : Nat} : ∀ (ps : List Pick) {s s' : State}, Zero s →
    run K s ps = some s' → Zero s' := by
  intro ps
  induction ps with
  | nil => intro s s' h hr; simp only [Pipeline.run, Option.some.injEq] at hr; subst hr; exact h
  | cons p ps ih =>
    intro s s' h hr
    simp only [Pipeline.run] at hr
    cases hs : Pipeline.step K s p with
    | none => rw [hs] at hr; simp at hr
    | some t => rw [hs] at hr; exact ih (h.zero_next hs) hr

/-- What a state with nothing sent looks like. -/
theorem Good.empty {K : Nat} {s : State} (h : Good K s) (hq : Quiet s) (hz : Zero s) :
    s.inputCount = 0 ∧ s.inputSum = 0 ∧ s.cb = false ∧ s.chOut = [] ∧ s.got = [] ∧
    s.count = 0 ∧ s.sum = 0 ∧ (∀ i, s.relIn i = [] ∧ s.relOut i = []) ∧
    (∀ i v, s.wk i ≠ some (.send v)) := by
  obtain ⟨z1, z2, z3⟩ := hz
  have hp : pending s.gen = none := by
    cases hg : s.gen with
    | none => rfl
    | some g =>
      obtain ⟨pc, n⟩ := g
      have := z3 _ hg
      cases pc <;> simp at this <;> rfl
  obtain ⟨g1, g2, g3⟩ := h.genC.gIdle hp
  have hout : s.chOut = [] ∧ s.got = [] := by
    have hf := h.flow
    constructor
    · apply List.eq_nil_iff_forall_not_mem.mpr
      intro a ha
      have e := hf a
      have := List.count_pos_iff.mpr ha
      rw [z2, List.count_nil] at e
      omega
    · apply List.eq_nil_iff_forall_not_mem.mpr
      intro a ha
      have e := hf a
      have := List.count_pos_iff.mpr ha
      rw [z2, List.count_nil] at e
      omega
  have hm := h.mainC.mIdle
    (by intro v hv; obtain ⟨pre, e, _⟩ := h.mainC.mCount v hv; rw [hout.2] at e; simp at e)
    (by intro v hv; obtain ⟨pre, e, _⟩ := h.mainC.mSum v hv; rw [hout.2] at e; simp at e)
  rw [z2] at g2 g3
  rw [hout.2] at hm
  refine ⟨by simpa [wrap64_zero] using g2, by simpa [wrap64_zero] using g3, g1, hout.1, hout.2,
    by simpa [wrap64_zero] using hm.1, by simpa [wrap64_zero] using hm.2, hq z2, ?_⟩
  intro i v hw
  exact Flow.wk_hand h.inv h.flow hw z2

/-! ### The sum of the first values -/

theorem upTo_succ : ∀ (N : Nat) (a : Int), upTo a (N + 1) = upTo a N ++ [a + (N + 1 : Nat)] := by
  intro N
  induction N with
  | zero => intro a; simp [upTo]
  | succ N ih =>
    intro a
    rw [upTo, ih (a + 1), upTo]
    have e : a + 1 + ((N + 1 : Nat) : Int) = a + ((N + 1 + 1 : Nat) : Int) := by
      push_cast; ring
    rw [e]
    rfl

theorem seqW_eq_upTo : ∀ (N : Nat), (N : Int) < 2 ^ 63 → seqW N = upTo 0 N := by
  intro N
  induction N with
  | zero => intro _; rfl
  | succ N ih =>
    intro h
    push_cast at h
    rw [seqW_succ, upTo_succ, ih (by omega), wrap64_of_range (by omega) (by omega)]
    push_cast
    simp

theorem sum_upTo_zero : ∀ (N : Nat), 2 * (upTo 0 N).sum = (N : Int) * (N + 1) := by
  intro N
  induction N with
  | zero => simp [upTo]
  | succ N ih =>
    rw [upTo_succ, List.sum_append, mul_add, ih]
    simp only [List.sum_cons, List.sum_nil]
    push_cast
    ring

theorem sum_upTo_div (N : Nat) : (upTo 0 N).sum = (N : Int) * (N + 1) / 2 := by
  have := sum_upTo_zero N
  omega

theorem lt_of_gauss_lt (N : Nat) (h : (N : Int) * (N + 1) / 2 < 2 ^ 63) : (N : Int) < 2 ^ 63 := by
  by_contra hc
  have h1 : (2 : Int) ^ 63 ≤ N := by omega
  have h2 : (N : Int) * 2 ≤ N * (N + 1) := by nlinarith
  have h3 : (N : Int) ≤ N * (N + 1) / 2 := by omega
  omega

/-! ### Example runs -/

theorem run_getD {K : Nat} {s : State} {ps : List Pick} (h : (run K s ps).isSome = true) :
    run K s ps = some ((run K s ps).getD s) := by
  cases hr : run K s ps with
  | none => rw [hr] at h; simp at h
  | some t => rfl

theorem demo_reachable : Reachable NumOut demo := ⟨demoSchedule, run_getD (by decide)⟩

theorem demoZero_reachable : Reachable NumOut demoZero :=
  ⟨[.deadline], run_getD (by decide)⟩

theorem demoWait_reachable : Reachable NumOut demoWait :=
  ⟨demoSchedule.take 62, run_getD (by decide)⟩

/-! ## The claims -/

/-- Claim C1 (conservation). For every worker count `K ≥ 1` and every interleaving (every
reachable state): once `chOut` is closed and empty, the values `main` has read from
`chOut` are, as a multiset, the values `Generator` sent on `chIn`; and once the loop over
`chOut` has ended, `chOut` is closed and empty, the two multisets are equal,
`count = inputCount` and `sum = inputSum`. -/
theorem conservation (K : Nat) (s : State) (hK : 1 ≤ K) (hr : Reachable K s) :
    (0 < s.chOutCloses → s.chOut = [] →
      (s.got : Multiset Int) = (s.sent : Multiset Int)) ∧
    (s.pc = .verify ∨ (∃ r, s.pc = .exited r) →
      0 < s.chOutCloses ∧ s.chOut = [] ∧ (s.got : Multiset Int) = (s.sent : Multiset Int) ∧
        s.count = s.inputCount ∧ s.sum = s.inputSum) := by
  have h := hr.good
  constructor
  · intro hz hout
    have hcl : s.cl = some .halted := by
      by_contra hc
      rw [h.inv.closes, if_neg hc] at hz
      omega
    have hall : ∀ i, i < K → s.wk i = some .halted ∧ s.rl i = some .halted := by
      intro i hi
      have r := (h.inv.idx i).clWg (Or.inr hcl) hi
      have o := (h.inv.idx i).rlOut (Or.inr r)
      exact ⟨((h.inv.idx i).outs).mp o, r⟩
    apply Multiset.coe_eq_coe.mpr
    rw [List.perm_iff_count]
    intro a
    have := h.flow a
    rw [sumTo_zero _ K (fun i hi => by simp [(hall i hi).1, hand]),
      sumTo_zero _ K (fun i hi => by simp [(hall i hi).2, handR]), hout] at this
    simpa using this.symm
  · intro hpc
    obtain ⟨d1, _, d3, _⟩ := h.inv.drained hK hpc
    obtain ⟨c1, c2, c3⟩ := h.conserved hK hpc
    exact ⟨by omega, d1, Multiset.coe_eq_coe.mpr c1, c2, c3⟩

/-- Witness of `conservation`: the run `demoSchedule` with the five workers of the source,
in which 1 and 2 are sent, `main` reads 2 before 1, and `main` returns. -/
theorem conservation_witness :
    (1 ≤ NumOut ∧ Reachable NumOut demo) ∧
    demo.pc = .exited .ok ∧ demo.sent = [1, 2] ∧ demo.got = [2, 1] ∧
    (demo.pc = .verify ∨ (∃ r, demo.pc = .exited r) →
      0 < demo.chOutCloses ∧ demo.chOut = [] ∧
        (demo.got : Multiset Int) = (demo.sent : Multiset Int) ∧
        demo.count = demo.inputCount ∧ demo.sum = demo.inputSum) :=
  ⟨⟨by decide, demo_reachable⟩, by decide, by decide, by decide,
    (conservation NumOut demo (by decide) demo_reachable).2⟩

/-- Claim C2 (verifier). For all integers `inputCount`, `inputSum`, `count`, `sum` (in
particular all `int64`), the final check of `main` ends in `log.Fatalf` if and only if
`inputCount ≠ count` or `inputSum ≠ sum`, and succeeds if and only if both pairs are equal;
and the step of `main` at the final check ends the process with exactly that outcome. -/
theorem final_check (inputCount inputSum count sum : Int) :
    (check inputCount inputSum count sum ≠ .ok ↔ (inputCount ≠ count ∨ inputSum ≠ sum)) ∧
    (check inputCount inputSum count sum = .ok ↔ (inputCount = count ∧ inputSum = sum)) ∧
    (∀ (K : Nat) (s : State), s.panicked = false → s.pc = .verify →
      s.inputCount = inputCount → s.inputSum = inputSum → s.count = count → s.sum = sum →
      step K s .main = some { s with pc := .exited (check inputCount inputSum count sum) }) := by
  refine ⟨?_, ?_, ?_⟩
  · unfold check
    by_cases h1 : inputSum = sum <;> by_cases h2 : inputCount = count <;> simp [h1, h2]
  · unfold check
    by_cases h1 : inputSum = sum <;> by_cases h2 : inputCount = count <;> simp [h1, h2]
  · intro K s hp hpc e1 e2 e3 e4
    subst e1 e2 e3 e4
    simp [step, hp, hpc, MainPC.isExited, stepMain]

/-- Claim C3, amended (producer sequence). For every run of `Generator` that returns after
sending `N` values with `N < 2^63`: the effects of the run are, in order, for each of
`1, 2, ..., N` the `default` branch of the `select`, the send of the value and directly
after it the call of `fn` with the same value, and then the cancelled branch and the
`close`; so the values sent are exactly `1, ..., N` in order and `fn` is called exactly `N`
times, with `1, ..., N` in order. -/
theorem generator_sequence (ctx : Nat → Bool) (N fuel : Nat) (hN : (N : Int) < 2 ^ 63)
    (hrun : ∀ k, k < N → ctx k = false) (hdone : ctx N = true) (hfuel : 3 * N + 2 ≤ fuel) :
    Generator ctx fuel = Generator.rounds 0 N ++ [.ctxDone, .close] ∧
    GenEv.sends (Generator ctx fuel) = upTo 0 N ∧
    GenEv.calls (Generator ctx fuel) = upTo 0 N := by
  obtain ⟨r, rfl⟩ : ∃ r, fuel = 3 * N + (r + 2) := ⟨fuel - (3 * N + 2), by omega⟩
  have h : Generator ctx (3 * N + (r + 2)) = Generator.rounds 0 N ++ [.ctxDone, .close] := by
    unfold Generator Generator.init
    rw [Generator.generator_exec_rounds ctx N 0 1 (r + 2) (fun j hj => by simpa using hrun j hj)]
    rw [Generator.exec_done ctx r _ _ (by simpa using hdone)]
    rw [show (1 : Int) = 0 + 1 by norm_num,
      Generator.roundsFrom_eq_rounds N 0 (by norm_num) (by simpa using hN)]
  refine ⟨h, ?_, ?_⟩
  · rw [h, GenEv.genEv_sends_append, Generator.generator_sends_rounds]; simp [GenEv.sends]
  · rw [h, GenEv.calls_append, Generator.calls_rounds]; simp [GenEv.calls]

/-- Witness of `generator_sequence`: the context is done at the third `select`. -/
theorem generator_sequence_witness :
    Generator (fun k => decide (2 ≤ k)) 8 =
        [.dflt, .send 1, .call 1, .dflt, .send 2, .call 2, .ctxDone, .close] ∧
      GenEv.sends (Generator (fun k => decide (2 ≤ k)) 8) = [1, 2] ∧
      GenEv.calls (Generator (fun k => decide (2 ≤ k)) 8) = [1, 2] :=
  generator_sequence (fun k => decide (2 ≤ k)) 2 8 (by decide)
    (fun k hk => by simp; omega) (by decide) (by decide)

/-- Counterexample to claim C3 as stated: when the context is done only at the `select`
number `2^63`, the run returns after sending `2^63` values, and these are not
`1, ..., 2^63`, because `n++` wraps after `2^63 - 1`. -/
theorem generator_sequence_wraps :
    (Generator (fun k => decide (2 ^ 63 ≤ k)) (3 * 2 ^ 63 + 2)).getLast? = some .close ∧
    (GenEv.sends (Generator (fun k => decide (2 ^ 63 ≤ k)) (3 * 2 ^ 63 + 2))).length = 2 ^ 63 ∧
    GenEv.sends (Generator (fun k => decide (2 ^ 63 ≤ k)) (3 * 2 ^ 63 + 2)) ≠ upTo 0 (2 ^ 63) := by
  have h : Generator (fun k => decide (2 ^ 63 ≤ k)) (3 * 2 ^ 63 + 2) =
      Generator.roundsFrom 1 (2 ^ 63) ++ [.ctxDone, .close] := by
    unfold Generator Generator.init
    rw [Generator.generator_exec_rounds _ (2 ^ 63) 0 1 2 (fun j hj => by simpa using hj)]
    rw [show (2 : Nat) = 0 + 2 from rfl, Generator.exec_done _ 0 _ _ (by simp)]
  refine ⟨?_, ?_, ?_⟩
  · rw [h, List.getLast?_append]; rfl
  · rw [h, GenEv.genEv_sends_append, List.length_append, Generator.sends_roundsFrom_length]
    rfl
  · rw [h, GenEv.genEv_sends_append]
    intro heq
    have hmem : ((0 : Int) + ((2 ^ 63 - 1 + 1 : Nat) : Int)) ∈ upTo 0 (2 ^ 63 - 1 + 1) :=
      mem_upTo_last (2 ^ 63 - 1) 0
    rw [show (2 ^ 63 - 1 + 1 : Nat) = 2 ^ 63 by norm_num] at hmem
    rw [← heq] at hmem
    have e : GenEv.sends [GenEv.ctxDone, GenEv.close] = [] := rfl
    rw [e, List.append_nil] at hmem
    have := Generator.sends_roundsFrom_lt (2 ^ 63) 1 (by norm_num) _ hmem
    norm_num at this

/-- Claim C4 (sanity identity). With the counting callback of `main`, in every reachable
state in which `Generator` is not between a send and the end of the callback for it, with
`N` the number of values sent so far and `N*(N+1)/2` in the `int64` range: the values sent
are `1, ..., N`, `inputCount = N` and `inputSum = N*(N+1)/2 = inputCount*(inputCount+1)/2`. -/
theorem sanity_identity (K : Nat) (s : State) (N : Nat) (hr : Reachable K s)
    (hidle : pending s.gen = none) (hN : s.sent.length = N)
    (hfit : (N : Int) * (N + 1) / 2 < 2 ^ 63) :
    s.sent = upTo 0 N ∧ s.inputCount = N ∧ s.inputSum = (N : Int) * (N + 1) / 2 ∧
      s.inputSum = s.inputCount * (s.inputCount + 1) / 2 := by
  have h := hr.good
  obtain ⟨_, g2, g3⟩ := h.genC.gIdle hidle
  have hlt := lt_of_gauss_lt N hfit
  have hseq : s.sent = upTo 0 N := by
    have := h.genC.seq
    rw [hN, seqW_eq_upTo N hlt] at this
    exact this
  have hc : s.inputCount = N := by
    rw [g2, hN, wrap64_of_range (by omega) hlt]
  have hs : s.inputSum = (N : Int) * (N + 1) / 2 := by
    rw [g3, hseq, sum_upTo_div]
    apply wrap64_of_range _ hfit
    have : (0 : Int) ≤ (N : Int) * (N + 1) := mul_nonneg (by omega) (by omega)
    omega
  exact ⟨hseq, hc, hs, by rw [hs, hc]⟩

/-- Witness of `sanity_identity`: the end of `demoSchedule`, where two values were sent. -/
theorem sanity_identity_witness :
    (Reachable NumOut demo ∧ pending demo.gen = none ∧ demo.sent.length = 2 ∧
      ((2 : Nat) : Int) * ((2 : Nat) + 1) / 2 < 2 ^ 63) ∧
    (demo.sent = upTo 0 2 ∧ demo.inputCount = (2 : Nat) ∧
      demo.inputSum = ((2 : Nat) : Int) * ((2 : Nat) + 1) / 2 ∧
      demo.inputSum = demo.inputCount * (demo.inputCount + 1) / 2) :=
  ⟨⟨demo_reachable, by decide, by decide, by decide⟩,
    sanity_identity NumOut demo 2 demo_reachable (by decide) (by decide) (by decide)⟩

/-- Claim C5 (producer shutdown). In every run of `Generator`, however long: `ch` is closed
at most once; a `close` comes directly after the `select` has taken the branch of
`ctx.Done()` and is the last effect of the run, so nothing is sent after it; the step that
closes `ch` is the only one that ends `Generator`, the cancelled branch is the only one
that leads to the `close`, and a `Generator` that has returned does nothing more. -/
theorem generator_shutdown (ctx : Nat → Bool) (fuel : Nat) :
    (Generator ctx fuel).count .close ≤ 1 ∧
    (∀ pre post, Generator ctx fuel = pre ++ .close :: post →
        pre.getLast? = some .ctxDone ∧ post = [] ∧ GenEv.sends post = []) ∧
    (∀ done g e g', Generator.step done g = some (e, g') →
        (e = .close ↔ g'.pc = .halted) ∧ (e = .ctxDone ↔ g'.pc = .close)) ∧
    (∀ done g, Generator.step done g = none ↔ g.pc = .halted) := by
  have key : ∀ pre post, Generator ctx fuel = pre ++ .close :: post →
      pre.getLast? = some .ctxDone ∧ post = [] ∧ .close ∉ pre := by
    intro pre post h
    have := Generator.exec_close_split ctx fuel 0 Generator.init pre post h
    simp [Generator.init] at this
    exact ⟨this.2.2, this.1, this.2.1⟩
  refine ⟨?_, ?_, ?_, ?_⟩
  · by_cases hm : GenEv.close ∈ Generator ctx fuel
    · obtain ⟨pre, post, h⟩ := List.append_of_mem hm
      obtain ⟨_, h2, h3⟩ := key pre post h
      rw [h, h2, List.count_append, List.count_eq_zero_of_not_mem h3]
      simp
    · rw [List.count_eq_zero_of_not_mem hm]; exact Nat.zero_le _
  · intro pre post h
    obtain ⟨h1, h2, _⟩ := key pre post h
    exact ⟨h1, h2, by rw [h2]; rfl⟩
  · intro done g e g' h
    obtain ⟨pc, n⟩ := g
    cases pc <;> cases done <;> simp [Generator.step] at h <;>
      obtain ⟨rfl, rfl⟩ := h <;> simp
  · intro done g
    obtain ⟨pc, n⟩ := g
    cases pc <;> cases done <;> simp [Generator.step]

/-- Claim C6 (zero-emission edge case). If the context is already done while `Generator` has
not been started or stands in front of its first `select`, then in every continuation
nothing is sent on `chIn`, the callback is not run (`inputCount = inputSum = 0`), no worker
holds a value to forward, no relay receives or writes anything, `chOut` stays empty,
`count = sum = 0` and nothing panics; every continuation is finite, one that cannot be
extended ends in `Final` (all channels closed, `main` returned through the final check
without a fatal error), and such a continuation exists. -/
theorem zero_emission (K : Nat) (s : State) (hK : 1 ≤ K) (hr : Reachable K s)
    (hd : s.deadline = true) (hg : s.gen = none ∨ s.gen = some Generator.init)
    (hsent : s.sent = []) :
    (∀ ps s', run K s ps = some s' →
      s'.sent = [] ∧ s'.inputCount = 0 ∧ s'.inputSum = 0 ∧ s'.cb = false ∧
      (∀ i v, s'.wk i ≠ some (.send v)) ∧ (∀ i, s'.relIn i = [] ∧ s'.relOut i = []) ∧
      s'.chOut = [] ∧ s'.got = [] ∧ s'.count = 0 ∧ s'.sum = 0 ∧ s'.panicked = false ∧
      ps.length ≤ mu K s ∧ ((∀ p, step K s' p = none) → Final K s')) ∧
    (∃ ps s', run K s ps = some s' ∧ Final K s' ∧ s'.inputCount = 0 ∧ s'.count = 0 ∧
      s'.inputSum = 0 ∧ s'.sum = 0) := by
  have h := hr.good
  have hz : Zero s := by
    refine ⟨hd, hsent, ?_⟩
    intro g hg'
    rcases hg with e | e
    · rw [e] at hg'; simp at hg'
    · rw [e] at hg'
      simp only [Option.some.injEq] at hg'
      subst hg'
      exact Or.inl rfl
  have main : ∀ ps s', run K s ps = some s' → Good K s' ∧
      (s'.inputCount = 0 ∧ s'.inputSum = 0 ∧ s'.cb = false ∧ s'.chOut = [] ∧ s'.got = [] ∧
        s'.count = 0 ∧ s'.sum = 0 ∧ (∀ i, s'.relIn i = [] ∧ s'.relOut i = []) ∧
        (∀ i v, s'.wk i ≠ some (.send v))) ∧ s'.sent = [] := by
    intro ps s' hrun
    have h' := Good.good_after ps h hrun
    have z' := Zero.zero_after ps hz hrun
    exact ⟨h', h'.empty (hr.reachable_after hrun).quiet z', z'.2.1⟩
  constructor
  · intro ps s' hrun
    obtain ⟨h', ⟨e1, e2, e3, e4, e5, e6, e7, e8, e9⟩, e0⟩ := main ps s' hrun
    refine ⟨e0, e1, e2, e3, e9, e8, e4, e5, e6, e7, h'.inv.noPanic, ?_, ?_⟩
    · have := Good.run_bound ps h hd hrun
      omega
    · intro hstuck
      cases he : s'.pc.isExited
      · obtain ⟨p, _, hp⟩ := h'.inv.progress he
        rw [hstuck p] at hp
        simp at hp
      · exact h'.final hK he
  · obtain ⟨ps, s', hrun, he⟩ := Good.exists_exit (mu K s) (Nat.le_refl _) h hd
    obtain ⟨h', ⟨e1, e2, e3, e4, e5, e6, e7, e8, e9⟩, e0⟩ := main ps s' hrun
    exact ⟨ps, s', hrun, h'.final hK he, e1, e6, e2, e7⟩

/-- Witness of `zero_emission`: the deadline fires before `main` has started anything. -/
theorem zero_emission_witness :
    (1 ≤ NumOut ∧ Reachable NumOut demoZero ∧ demoZero.deadline = true ∧
      (demoZero.gen = none ∨ demoZero.gen = some Generator.init) ∧ demoZero.sent = []) ∧
    ∃ ps s', run NumOut demoZero ps = some s' ∧ Final NumOut s' ∧
      s'.inputCount = 0 ∧ s'.count = 0 ∧ s'.inputSum = 0 ∧ s'.sum = 0 :=
  ⟨⟨by decide, demoZero_reachable, by decide, Or.inl (by decide), by decide⟩,
    (zero_emission NumOut demoZero (by decide) demoZero_reachable (by decide)
      (Or.inl (by decide)) (by decide)).2⟩

/-- Claim C7 (worker relay). For every finite sequence `ins` of values a `Worker` receives
before `in` is closed and drained (and enough steps to finish): the values it receives are
`ins`, the values it writes to `out` are exactly `ins` in the same order, it closes `out`
exactly once, and the `close` is its last effect, after all the writes. -/
theorem worker_relay (ins : List Int) (fuel : Nat) (hfuel : 3 * ins.length + 2 ≤ fuel) :
    WorkerEv.recvs (Worker ins fuel) = ins ∧
    WorkerEv.sends (Worker ins fuel) = ins ∧
    (Worker ins fuel).count .close = 1 ∧
    ∀ pre post, Worker ins fuel = pre ++ .close :: post →
      post = [] ∧ WorkerEv.sends pre = ins := by
  have h := Worker.eq_rounds ins fuel hfuel
  have hc : (Worker.rounds ins ++ [WorkerEv.eof, WorkerEv.close]).count .close = 1 := by
    rw [List.count_append, List.count_eq_zero_of_not_mem (Worker.close_not_mem_rounds ins)]
    decide
  refine ⟨?_, ?_, ?_, ?_⟩
  · rw [h, WorkerEv.recvs_append, Worker.recvs_rounds]; simp [WorkerEv.recvs]
  · rw [h, WorkerEv.workerEv_sends_append, Worker.worker_sends_rounds]; simp [WorkerEv.sends]
  · rw [h]; exact hc
  · intro pre post hsplit
    rw [h] at hsplit
    have hpost : post = [] := by
      have hcnt := congrArg (List.count WorkerEv.close) hsplit
      rw [hc, List.count_append, List.count_cons_self] at hcnt
      have hpre : List.count WorkerEv.close post = 0 := by omega
      have hlast := congrArg List.getLast? hsplit
      rw [List.getLast?_append] at hlast
      cases post with
      | nil => rfl
      | cons p ps =>
        exfalso
        have hp : (WorkerEv.close :: p :: ps).getLast? = some .close := by
          rw [List.getLast?_append] at hlast
          simpa using hlast.symm
        rw [List.getLast?_cons_cons] at hp
        have := List.mem_of_getLast?_eq_some hp
        exact (List.count_eq_zero.mp hpre) this
    subst hpost
    refine ⟨rfl, ?_⟩
    have h2 : Worker.rounds ins ++ [WorkerEv.eof] ++ [WorkerEv.close] = pre ++ [WorkerEv.close] := by
      simpa using hsplit
    have h3 := List.append_cancel_right h2
    rw [← h3, WorkerEv.workerEv_sends_append, Worker.worker_sends_rounds]; simp [WorkerEv.sends]

/-- Witness of `worker_relay`: the worker receives 7 and 8. -/
theorem worker_relay_witness :
    WorkerEv.recvs (Worker [7, 8] 8) = [7, 8] ∧
    WorkerEv.sends (Worker [7, 8] 8) = [7, 8] ∧
    (Worker [7, 8] 8).count .close = 1 ∧
    ∀ pre post, Worker [7, 8] 8 = pre ++ .close :: post →
      post = [] ∧ WorkerEv.sends pre = [7, 8] :=
  worker_relay [7, 8] 8 (by decide)

/-- Claim C8 (collector shutdown). In every reachable state, for every worker count and
interleaving: nothing has panicked (so no relay has sent on a closed `chOut` and `chOut`
was not closed twice); `chOut` has been closed at most once; if it has been closed then
every relay has returned, its worker channel is closed, and the relay has written to
`chOut` exactly the values it received from its worker channel; a relay that still holds a
value finds `chOut` open; at any time a relay has written to `chOut`, in order, the values
it received, except the one it holds; when `main` ends `chOut` has been closed exactly
once. The close does happen: while a relay has not returned the closing goroutine is
blocked in `wg.Wait()`; once every relay has returned it can leave `wg.Wait()`; having
left it, it can move, `chOut` is still open, and its move closes `chOut`, making the
number of closes 1; no continuation undoes a close; every continuation that cannot be
extended ends with `chOut` closed exactly once and every relay returned; and once the
deadline has fired every continuation is finite and one that cannot be extended
exists. -/
theorem collector_shutdown (K : Nat) (s : State) (hr : Reachable K s) :
    s.panicked = false ∧ s.chOutCloses ≤ 1 ∧
    (0 < s.chOutCloses → ∀ i, i < K →
      s.rl i = some .halted ∧ s.outsClosed i = true ∧ s.relOut i = s.relIn i) ∧
    (∀ i v, s.rl i = some (.send v) → s.chOutCloses = 0) ∧
    (∀ i, s.relIn i = s.relOut i ++ handR (s.rl i)) ∧
    (s.pc.isExited = true → s.chOutCloses = 1) ∧
    (s.cl = some .wait → ∀ i, i < K → s.rl i ≠ some .halted → step K s .closer = none) ∧
    (s.cl = some .wait → (∀ i, i < K → s.rl i = some .halted) →
      step K s .closer = some { s with cl := some .close }) ∧
    (s.cl = some .close → s.chOutCloses = 0 ∧
      step K s .closer = some { s with chOutCloses := 1, cl := some .halted }) ∧
    (∀ ps s', run K s ps = some s' → s.chOutCloses ≤ s'.chOutCloses) ∧
    (∀ ps s', run K s ps = some s' → (∀ p, step K s' p = none) →
      s'.chOutCloses = 1 ∧ ∀ i, i < K → s'.rl i = some .halted) ∧
    (s.deadline = true →
      (∀ ps s', run K s ps = some s' → ps.length ≤ mu K s) ∧
      (∃ ps s', run K s ps = some s' ∧ (∀ p, step K s' p = none) ∧ s'.chOutCloses = 1)) := by
  have h := hr.good
  have hcl : ∀ t : State, Inv K t → 0 < t.chOutCloses → ∀ i, i < K → t.rl i = some .halted := by
    intro t ht hz i hi
    have hc : t.cl = some .halted := by
      by_contra hc; rw [ht.closes, if_neg hc] at hz; omega
    exact (ht.idx i).clWg (Or.inr hc) hi
  refine ⟨h.inv.noPanic, ?_, ?_, ?_, h.logs, ?_, ?_, ?_, ?_, ?_, ?_, ?_⟩
  · rw [h.inv.closes]; split <;> omega
  · intro hz i hi
    have r := hcl s h.inv hz i hi
    have l := h.logs i
    rw [r] at l
    exact ⟨r, (h.inv.idx i).rlOut (Or.inr r), by simpa [handR] using l.symm⟩
  · intro i v hv
    exact (h.inv.closes_zero hv (by simp)).1
  · intro he
    have hex : ∃ r, s.pc = .exited r := by
      cases hpc : s.pc <;> simp [hpc, MainPC.isExited] at he
      exact ⟨_, rfl⟩
    rw [h.inv.closes, if_pos (h.inv.fin (Or.inr hex)).2]
  · intro hc i hi hne
    exact h.inv.closer_blocked hc hi hne
  · intro hc hall
    exact h.inv.closer_wait hc hall
  · intro hc
    exact h.inv.closer_close hc
  · intro ps s' hrun
    exact run_closes_mono ps hrun
  · intro ps s' hrun hst
    have h' := (Good.good_after ps h hrun).inv
    have h1 := (h'.stuck_closed hst).2
    exact ⟨h1, hcl s' h' (by omega)⟩
  · intro hd
    constructor
    · intro ps s' hrun
      have := Good.run_bound ps h hd hrun
      omega
    · obtain ⟨ps, s', hrun, he⟩ := Good.exists_exit (mu K s) (Nat.le_refl _) h hd
      have h' := (Good.good_after ps h hrun).inv
      have hst := fun p => step_exited (K := K) he p
      exact ⟨ps, s', hrun, hst, (h'.stuck_closed hst).2⟩

/-- Witness of `collector_shutdown`: in `demoWait` the deadline has fired, every relay has
returned, the closing goroutine stands in `wg.Wait()` and `chOut` is open; two moves of the
closing goroutine close it. -/
theorem collector_shutdown_witness :
    (Reachable NumOut demoWait ∧ demoWait.cl = some .wait ∧ demoWait.deadline = true ∧
      demoWait.chOutCloses = 0 ∧ (∀ i, i < NumOut → demoWait.rl i = some .halted) ∧
      (run NumOut demoWait [.closer, .closer]).map (fun t => t.chOutCloses) = some 1) ∧
    (demoWait.panicked = false ∧ demoWait.chOutCloses ≤ 1 ∧
    (0 < demoWait.chOutCloses → ∀ i, i < NumOut →
      demoWait.rl i = some .halted ∧ demoWait.outsClosed i = true ∧
        demoWait.relOut i = demoWait.relIn i) ∧
    (∀ i v, demoWait.rl i = some (.send v) → demoWait.chOutCloses = 0) ∧
    (∀ i, demoWait.relIn i = demoWait.relOut i ++ handR (demoWait.rl i)) ∧
    (demoWait.pc.isExited = true → demoWait.chOutCloses = 1) ∧
    (demoWait.cl = some .wait → ∀ i, i < NumOut → demoWait.rl i ≠ some .halted →
      step NumOut demoWait .closer = none) ∧
    (demoWait.cl = some .wait → (∀ i, i < NumOut → demoWait.rl i = some .halted) →
      step NumOut demoWait .closer = some { demoWait with cl := some .close }) ∧
    (demoWait.cl = some .close → demoWait.chOutCloses = 0 ∧
      step NumOut demoWait .closer =
        some { demoWait with chOutCloses := 1, cl := some .halted }) ∧
    (∀ ps t, run NumOut demoWait ps = some t → demoWait.chOutCloses ≤ t.chOutCloses) ∧
    (∀ ps t, run NumOut demoWait ps = some t → (∀ p, step NumOut t p = none) →
      t.chOutCloses = 1 ∧ ∀ i, i < NumOut → t.rl i = some .halted) ∧
    (demoWait.deadline = true →
      (∀ ps t, run NumOut demoWait ps = some t → ps.length ≤ mu NumOut demoWait) ∧
      (∃ ps t, run NumOut demoWait ps = some t ∧ (∀ p, step NumOut t p = none) ∧
        t.chOutCloses = 1))) :=
  ⟨⟨demoWait_reachable, by decide, by decide, by decide, by decide, by decide⟩,
    collector_shutdown NumOut demoWait demoWait_reachable⟩

/-- Claim C9 (closure cascade termination). For every worker count `K ≥ 1` and every
reachable state: while `main` has not ended some goroutine can move (no state is a
deadlock); and once the deadline has fired, every continuation has at most `mu K s` steps,
a continuation that cannot be extended ends in `Final` (`chIn`, every worker channel and
`chOut` closed, `chOut` empty, the loop of `main` ended, every goroutine returned), and
such a continuation exists. -/
theorem cascade_termination (K : Nat) (s : State) (hK : 1 ≤ K) (hr : Reachable K s) :
    (s.pc.isExited = false → ∃ p, p ≠ Pick.deadline ∧ (step K s p).isSome = true) ∧
    (s.deadline = true →
      (∀ ps s', run K s ps = some s' → ps.length ≤ mu K s) ∧
      (∀ ps s', run K s ps = some s' → (∀ p, step K s' p = none) → Final K s') ∧
      (∃ ps s', run K s ps = some s' ∧ Final K s')) := by
  have h := hr.good
  refine ⟨h.inv.progress, ?_⟩
  intro hd
  refine ⟨?_, ?_, ?_⟩
  · intro ps s' hrun
    have := Good.run_bound ps h hd hrun
    omega
  · intro ps s' hrun hstuck
    have h' := Good.good_after ps h hrun
    cases he : s'.pc.isExited
    · obtain ⟨p, _, hp⟩ := h'.inv.progress he
      rw [hstuck p] at hp
      simp at hp
    · exact h'.final hK he
  · obtain ⟨ps, s', hrun, he⟩ := Good.exists_exit (mu K s) (Nat.le_refl _) h hd
    exact ⟨ps, s', hrun, (Good.good_after ps h hrun).final hK he⟩

/-- Witness of `cascade_termination`: the deadline fires before `main` has started
anything. -/
theorem cascade_termination_witness :
    (1 ≤ NumOut ∧ Reachable NumOut demoZero ∧ demoZero.deadline = true) ∧
    ((demoZero.pc.isExited = false →
        ∃ p, p ≠ Pick.deadline ∧ (step NumOut demoZero p).isSome = true) ∧
    (demoZero.deadline = true →
      (∀ ps s', run NumOut demoZero ps = some s' → ps.length ≤ mu NumOut demoZero) ∧
      (∀ ps s', run NumOut demoZero ps = some s' → (∀ p, step NumOut s' p = none) →
        Final NumOut s') ∧
      (∃ ps s', run NumOut demoZero ps = some s' ∧ Final NumOut s'))) :=
  ⟨⟨by decide, demoZero_reachable, by decide⟩,
    cascade_termination NumOut demoZero (by decide) demoZero_reachable⟩

/-- Claim C10, amended (worker step order). For each value a `Worker` receives from `in`,
the `Worker` first writes that value to `out` and only then sleeps the fixed delay of 1ms:
its effects are, for each value in turn, the receive, the write and the sleep, and then the
end of input and the `close`. -/
theorem worker_write_then_sleep (ins : List Int) (fuel : Nat)
    (hfuel : 3 * ins.length + 2 ≤ fuel) :
    Worker ins fuel = Worker.rounds ins ++ [.eof, .close] ∧
    WorkerEv.writeThenSleep (Worker ins fuel) = true := by
  have h := Worker.eq_rounds ins fuel hfuel
  refine ⟨h, ?_⟩
  rw [h]
  exact Worker.writeThenSleep_rounds ins _ (by decide)

/-- Witness of `worker_write_then_sleep`: the worker receives 7 and 8. -/
theorem worker_write_then_sleep_witness :
    Worker [7, 8] 8 =
      [.recv 7, .send 7, .sleep 1, .recv 8, .send 8, .sleep 1, .eof, .close] ∧
    WorkerEv.writeThenSleep (Worker [7, 8] 8) = true :=
  worker_write_then_sleep [7, 8] 8 (by decide)

/-- Counterexample to claim C10 as stated: a `Worker` that receives the single value 7
writes it before it sleeps; no sleep stands between the receive and the write. -/
theorem worker_sleep_not_before_write :
    Worker [7] 5 = [.recv 7, .send 7, .sleep 1, .eof, .close] ∧
    WorkerEv.sleepThenWrite (Worker [7] 5) = false := by
  decide

end Pipeline
